import Mathlib

/-!
Verification of the shift-allocation engine of `schedule_app`
(`core/parser.py` and `core/scheduler.py`), as a shallow embedding.

Conventions of the embedding:
* Python decimal-hour floats are modelled as `ℚ` (the spec speaks of exact
  decimal hours; all constants of the code are decimal fractions).
* Python dicts are modelled as association lists in insertion order
  (`List (String × _)`), or as total functions `String → ℚ` / `String → Bool`
  for the pure bookkeeping dicts `assigned_hours` / `ws_status`, whose
  accesses in the code are all of the form `d[k]` or `d.get(k, default)`
  at keys present in the dict.
* The process-global random source is modelled by an `Oracle` of
  permutation-valued functions, one per `random.shuffle` / sort-with-random
  -tiebreak site; theorems quantify over all oracles whose outputs are
  permutations of their inputs, which subsumes every draw of the real RNG.
* The unbounded `while cur < e0` loop of the allocator is run on explicit
  fuel that over-approximates the true iteration count (the code advances
  `cur` by at least 2 hours per iteration); safety theorems hold for every
  fuel value.
-/

namespace ScheduleApp

/-! ## Characters, digit strings, and Python number parsing -/

def digitChar (d : Nat) : Char := Char.ofNat (48 + d)

/-- Decimal digits, most significant first, by structural recursion on a fuel
bound (`fuel ≥ n` suffices, so `natDigits` below always has enough). -/
def natDigitsAux : Nat → Nat → List Char
  | 0, n => [digitChar n]
  | fuel + 1, n =>
    if n < 10 then [digitChar n] else natDigitsAux fuel (n / 10) ++ [digitChar (n % 10)]

/-- Decimal digits of `n`, most significant first (Python's `str` on ints). -/
def natDigits (n : Nat) : List Char := natDigitsAux n n

def natRepr (n : Nat) : String := ⟨natDigits n⟩

def intDigits (i : Int) : List Char :=
  if i < 0 then '-' :: natDigits i.natAbs else natDigits i.natAbs

def intRepr (i : Int) : String := ⟨intDigits i⟩

/-- Python `f"{i:02d}"`: zero-pad to width 2. -/
def pad2 (i : Int) : String :=
  let s := intRepr i
  if s.length < 2 then "0" ++ s else s

/-- Value of a run of decimal digit characters. -/
def digitsVal (l : List Char) : Nat := l.foldl (fun a c => a * 10 + (c.toNat - 48)) 0

def stripChars (l : List Char) : List Char :=
  ((l.dropWhile Char.isWhitespace).reverse.dropWhile Char.isWhitespace).reverse

/-- Python `int(s)` on a string: optional surrounding whitespace, optional
sign, then decimal digits; `none` models `ValueError`. -/
def parseIntQ (s : String) : Option Int :=
  match stripChars s.toList with
  | [] => none
  | c :: rest =>
    if c = '-' then
      if rest ≠ [] ∧ rest.all Char.isDigit then some (-(digitsVal rest : Int)) else none
    else if c = '+' then
      if rest ≠ [] ∧ rest.all Char.isDigit then some (digitsVal rest) else none
    else if (c :: rest).all Char.isDigit then some (digitsVal (c :: rest)) else none

/-- Python `float(s)` on decimal literals `[sign] digits [. digits]` /
`[sign] . digits` (surrounding whitespace allowed); exotic forms such as
exponents, `inf` and `nan` are not modelled and yield `none`, like any
unparseable string. -/
def parseFloatQ (s : String) : Option ℚ :=
  let core : List Char → Option ℚ := fun l =>
    let ip := l.takeWhile Char.isDigit
    let rest := l.dropWhile Char.isDigit
    match rest with
    | [] => if ip ≠ [] then some (digitsVal ip : ℚ) else none
    | '.' :: fp =>
      if fp.all Char.isDigit ∧ (ip ≠ [] ∨ fp ≠ []) then
        some ((digitsVal ip : ℚ) + (digitsVal fp : ℚ) / (10 ^ fp.length : ℚ))
      else none
    | _ => none
  match stripChars s.toList with
  | [] => none
  | c :: rest =>
    if c = '-' then (core rest).map (fun q => -q)
    else if c = '+' then core rest
    else core (c :: rest)

/-- Python `s.split(sep)` for a one-character separator. -/
def splitChAux (c : Char) : List Char → List Char → List String
  | [], acc => [⟨acc.reverse⟩]
  | x :: xs, acc =>
    if x = c then ⟨acc.reverse⟩ :: splitChAux c xs [] else splitChAux c xs (x :: acc)

def pySplit (s : String) (c : Char) : List String := splitChAux c s.toList []

def pyStrip (s : String) : String := ⟨stripChars s.toList⟩

/-- Python `int(x)` on a float: truncation toward zero. -/
def pyTrunc (q : ℚ) : Int := if q < 0 then -(⌊-q⌋) else ⌊q⌋

/-- Python `round(x)`: round half to even. -/
def pyRound (q : ℚ) : Int :=
  let f := ⌊q⌋
  let r := q - f
  if r < 1 / 2 then f else if 1 / 2 < r then f + 1 else if f % 2 = 0 then f else f + 1

/-! ## `core/parser.py` -/

/-- `parser.time_to_hour`: `"HH:MM"` to decimal hours, with a `float(t)`
fallback for other formats, and `0.0` on anything unparseable. -/
def time_to_hour (t : String) : ℚ :=
  let fallback := match parseFloatQ t with | some q => q | none => 0
  match pySplit t ':' with
  | [a, b] =>
    match parseIntQ a, parseIntQ b with
    | some h, some m => (h : ℚ) + (m : ℚ) / 60
    | _, _ => fallback
  | _ => fallback

/-- `scheduler.hour_to_time_str`: decimal hour to `"HH:MM"` (24h, values
beyond 24:00 allowed). -/
def hour_to_time_str (hour : ℚ) : String :=
  let h := pyTrunc hour
  let m := pyRound ((hour - h) * 60)
  pad2 h ++ ":" ++ pad2 m

/-- An availability interval of a worker (`{start_hour, end_hour}` as used by
the scheduler). -/
structure Interval where
  start_hour : ℚ
  end_hour : ℚ
deriving Repr, DecidableEq

/-- An entry produced by `parser.parse_availability` (keys
`start`, `end`, `start_hour`, `end_hour`; the `end` key is `stop` here). -/
structure ParsedSlot where
  start : String
  stop : String
  start_hour : ℚ
  end_hour : ℚ
deriving Repr, DecidableEq

def isWordChar (c : Char) : Bool := c.isAlphanum || c = '_'

/-- Match `\d{1,2}:\d{2}` at the head of `l` (greedy on the first group, with
the regex engine's backtracking), returning the matched text and the rest. -/
def matchClock (l : List Char) : Option (String × List Char) :=
  match l with
  | a :: b :: ':' :: c :: d :: rest =>
    if a.isDigit ∧ b.isDigit ∧ c.isDigit ∧ d.isDigit then some (⟨[a, b, ':', c, d]⟩, rest)
    else match l with
      | a :: ':' :: c :: d :: rest =>
        if a.isDigit ∧ c.isDigit ∧ d.isDigit then some (⟨[a, ':', c, d]⟩, rest) else none
      | _ => none
  | a :: ':' :: c :: d :: rest =>
    if a.isDigit ∧ c.isDigit ∧ d.isDigit then some (⟨[a, ':', c, d]⟩, rest) else none
  | _ => none

/-- `re.match(r'(\w+)\s+(\d{1,2}:\d{2})-(\d{1,2}:\d{2})', block)`: the three
captured groups, or `none` when the block does not match. -/
def matchBlock (block : String) : Option (String × String × String) :=
  let l := block.toList
  let w := l.takeWhile isWordChar
  if w = [] then none
  else
    let r1 := l.dropWhile isWordChar
    if r1.takeWhile Char.isWhitespace = [] then none
    else
      let r2 := r1.dropWhile Char.isWhitespace
      match matchClock r2 with
      | none => none
      | some (t1, r3) =>
        match r3 with
        | '-' :: r4 =>
          match matchClock r4 with
          | some (t2, _) => some (⟨w⟩, t1, t2)
          | none => none
        | _ => none

/-- Python `str.lower()` (ASCII range; the day tokens it is applied to are
ASCII). -/
def pyLower (s : String) : String :=
  ⟨s.toList.map (fun c => if 'A' ≤ c ∧ c ≤ 'Z' then Char.ofNat (c.toNat + 32) else c)⟩

def day_map (s : String) : Option String :=
  if s = "sunday" ∨ s = "sun" then some "Sunday"
  else if s = "monday" ∨ s = "mon" then some "Monday"
  else if s = "tuesday" ∨ s = "tue" then some "Tuesday"
  else if s = "wednesday" ∨ s = "wed" then some "Wednesday"
  else if s = "thursday" ∨ s = "thu" then some "Thursday"
  else if s = "friday" ∨ s = "fri" then some "Friday"
  else if s = "saturday" ∨ s = "sat" then some "Saturday"
  else none

def availSetdefaultAppend (av : List (String × List ParsedSlot)) (day : String)
    (slot : ParsedSlot) : List (String × List ParsedSlot) :=
  if av.any (fun p => p.1 == day) then
    av.map (fun p => if p.1 == day then (p.1, p.2 ++ [slot]) else p)
  else av ++ [(day, [slot])]

/-- `parser.parse_availability`: split the text on commas, match each block
against `<day> <HH:MM>-<HH:MM>`, silently skipping unmatched blocks and
unknown day tokens; wrap past midnight when end ≤ start. -/
def parse_availability (raw_string : String) : List (String × List ParsedSlot) :=
  if raw_string = "" then []
  else
    (pySplit raw_string ',').foldl
      (fun availability block =>
        match matchBlock (pyStrip block) with
        | none => availability
        | some (day_raw, start, stop) =>
          match day_map (pyLower day_raw) with
          | none => availability
          | some day =>
            let sh := time_to_hour start
            let eh0 := time_to_hour stop
            let eh := if eh0 ≤ sh then eh0 + 24 else eh0
            availSetdefaultAppend availability day ⟨start, stop, sh, eh⟩)
      []

/-! ## `core/scheduler.py`: data model -/

/-- A worker record as consumed by the scheduler (availability is a dict of
day → list of intervals, kept in insertion order). -/
structure Worker where
  first_name : String
  last_name : String
  email : String
  work_study : Bool
  availability : List (String × List Interval)
deriving Repr, DecidableEq

/-- One hours-of-operation block (`{'start': "HH:MM", 'end': "HH:MM"}`; the
`end` key is `stop` here). -/
structure OpInterval where
  start : String
  stop : String
deriving Repr, DecidableEq

/-- A shift dict as built by `create_shifts_from_availability`. The fields
`sh`/`eh` record the decimal bounds the code computed just before converting
to the `start`/`stop` strings (phase 1: the split piece; phase 2:
`cur`/`end_shift`); the Python dict carries the same information only through
the rounded strings. `is_work_study` is `false` where the Python dict has no
such key. -/
structure Shift where
  start : String
  stop : String
  assigned : List String
  available : List String
  raw_assigned : List String
  all_available : List Worker
  is_work_study : Bool
  sh : ℚ
  eh : ℚ
deriving Repr, DecidableEq

/-- An entry of `unfilled_shifts`. -/
structure Unfilled where
  day : String
  start : String
  stop : String
  start_hour : ℚ
  end_hour : ℚ
deriving Repr, DecidableEq

abbrev Sched := List (String × List Shift)

def wname (w : Worker) : String := w.first_name ++ " " ++ w.last_name

/-- `worker.get('availability', {}).get(day, [])`. -/
def availGet (w : Worker) (day : String) : List Interval :=
  ((w.availability.find? (fun p => p.1 == day)).map Prod.snd).getD []

def dayShifts (s : Sched) (day : String) : List Shift :=
  ((s.find? (fun p => p.1 == day)).map Prod.snd).getD []

def hasDay (s : Sched) (day : String) : Bool := s.any (fun p => p.1 == day)

/-- `schedule.setdefault(day, []).append(sh)`. -/
def appendShift (s : Sched) (day : String) (sh : Shift) : Sched :=
  if hasDay s day then s.map (fun p => if p.1 == day then (p.1, p.2 ++ [sh]) else p)
  else s ++ [(day, [sh])]

/-- `schedule.setdefault(day, [])` used for its side effect only. -/
def ensureDay (s : Sched) (day : String) : Sched :=
  if hasDay s day then s else s ++ [(day, [])]

def bump (ah : String → ℚ) (em : String) (d : ℚ) : String → ℚ :=
  fun x => if x = em then ah x + d else ah x

/-- Dict assignment `d[k] = v` on an insertion-ordered association list. -/
def dinsert {α : Type} (d : List (String × α)) (k : String) (v : α) : List (String × α) :=
  if d.any (fun p => p.1 == k) then d.map (fun p => if p.1 == k then (p.1, v) else p)
  else d ++ [(k, v)]

def dlookup {α : Type} (d : List (String × α)) (k : String) : Option α :=
  (d.find? (fun p => p.1 == k)).map Prod.snd

/-- `config.DAYS` (the scheduler sorts its day iteration by this order). -/
def DAYS : List String :=
  ["Monday", "Tuesday", "Wednesday", "Thursday", "Friday", "Saturday", "Sunday"]

def listIndex : List String → String → Nat
  | [], _ => 0
  | d :: rest, x => if d = x then 0 else listIndex rest x + 1

/-- Python's stable `list.sort(key=...)` / `sorted(..., key=...)`. -/
def sortByKey {α : Type} {β : Type} [LinearOrder β] (key : α → β) (l : List α) : List α :=
  l.insertionSort (fun a b => key a ≤ key b)

/-! ## `core/scheduler.py`: helper functions -/

/-- `scheduler.overlaps`. -/
def overlaps (s1 e1 s2 e2 : ℚ) : Bool := decide (max s1 s2 < min e1 e2)

/-- `scheduler.is_worker_available`: some availability interval for that day
fully contains `[shift_start, shift_end]`. -/
def is_worker_available (worker : Worker) (day : String) (shift_start shift_end : ℚ) : Bool :=
  (availGet worker day).any
    (fun a => decide (a.start_hour ≤ shift_start) && decide (shift_end ≤ a.end_hour))

/-- `scheduler.find_alternative_workers`: workers who could cover
day `start→end` under the cap `max_hours`, sorted by current assigned hours
(stable). -/
def find_alternative_workers (workers : List Worker) (day : String) (s e : ℚ)
    (assigned_hours : String → ℚ) (max_hours : ℚ) (already_assigned : List String) :
    List Worker :=
  let alts := workers.filter (fun w =>
    !(already_assigned.contains w.email) &&
    is_worker_available w day s e &&
    decide (assigned_hours w.email + (e - s) ≤ max_hours))
  sortByKey (fun w => assigned_hours w.email) alts

/-- The perfect 3+2 split search of `find_optimal_shift_split`: the first
window of duration in `[2.8, 3.2]` paired with the first other window of
duration in `[1.8, 2.2]`. -/
def perfect32 (windows : List (String × ℚ × ℚ)) : Option (List (String × ℚ × ℚ × ℚ)) :=
  windows.enum.findSome? (fun p =>
    if 14/5 ≤ p.2.2.2 - p.2.2.1 ∧ p.2.2.2 - p.2.2.1 ≤ 16/5 then
      windows.enum.findSome? (fun q =>
        if p.1 ≠ q.1 ∧ 9/5 ≤ q.2.2.2 - q.2.2.1 ∧ q.2.2.2 - q.2.2.1 ≤ 11/5 then
          some [(p.2.1, p.2.2.1, p.2.2.1 + 3, 3), (q.2.1, q.2.2.1, q.2.2.1 + 2, 2)]
        else none)
    else none)

/-- The greedy tail of `find_optimal_shift_split`: consume duration from the
(sorted) windows until `remaining` is reached, splitting a ≥4.5h window into
3h+2h when `remaining` is still the full 5.0. -/
def greedyConsume : List (String × ℚ × ℚ) → ℚ → Bool → List (String × ℚ × ℚ × ℚ)
  | [], _, _ => []
  | (day, s, e) :: rest, remaining, prefer_split =>
    if remaining ≤ 0 then []
    else if prefer_split ∧ 9/2 ≤ e - s ∧ remaining = 5 then
      [(day, s, s + 3, 3), (day, s + 3, s + 5, 2)]
    else
      (day, s, s + min (e - s) remaining, min (e - s) remaining) ::
        greedyConsume rest (remaining - min (e - s) remaining) prefer_split

/-- `scheduler.find_optimal_shift_split`. -/
def find_optimal_shift_split (windows : List (String × ℚ × ℚ)) (remaining_hours : ℚ)
    (prefer_split : Bool) : List (String × ℚ × ℚ × ℚ) :=
  if windows = [] ∨ remaining_hours ≤ 0 then []
  else
    let total_available := (windows.map (fun p => p.2.2 - p.2.1)).sum
    if total_available < remaining_hours then
      windows.map (fun p => (p.1, p.2.1, p.2.2, p.2.2 - p.2.1))
    else
      match (if prefer_split ∧ remaining_hours = 5 then perfect32 windows else none) with
      | some r => r
      | none =>
        greedyConsume (sortByKey (fun p => p.2.2 - p.2.1) windows) remaining_hours prefer_split

/-- `scheduler.calculate_availability_hours`. -/
def calculate_availability_hours (w : Worker) : ℚ :=
  (w.availability.map (fun p => (p.2.map (fun a => a.end_hour - a.start_hour)).sum)).sum

/-- Python `f"{q:.1f}"` (round half to even at one decimal; `q ≥ 0` at the
only call site). -/
def fmt1 (q : ℚ) : String :=
  let n := pyRound (q * 10)
  if n < 0 then "-" ++ natRepr ((-n).toNat / 10) ++ "." ++ natRepr ((-n).toNat % 10)
  else natRepr (n.toNat / 10) ++ "." ++ natRepr (n.toNat % 10)

/-- Total overlap of a worker's availability with the hours of operation,
as accumulated by `check_work_study_availability`. -/
def matchingHours (hop : List (String × List OpInterval)) (w : Worker) : ℚ :=
  hop.foldl (fun acc p =>
    p.2.foldl (fun acc2 op =>
      let op_start := time_to_hour op.start
      let op_end0 := time_to_hour op.stop
      let op_end := if op_end0 ≤ op_start then op_end0 + 24 else op_end0
      (availGet w p.1).foldl (fun acc3 a =>
        let overlap_start := max op_start a.start_hour
        let overlap_end := min op_end a.end_hour
        if overlap_start < overlap_end then acc3 + (overlap_end - overlap_start) else acc3)
        acc2)
      acc)
    0

/-- `scheduler.check_work_study_availability`: work-study workers with
less than 5 matching hours, with the issue message. -/
def check_work_study_availability (ws_workers : List Worker)
    (hop : List (String × List OpInterval)) : List (Worker × String) :=
  (ws_workers.filter (fun w => decide (matchingHours hop w < 5))).map
    (fun w => (w, "Only " ++ fmt1 (matchingHours hop w) ++
      " hours available during operating hours (needs 5)"))

/-- `scheduler.recently_scheduled`: the worker has a shift that day whose end
is within `buffer_hours = 0.5` of `shift_start`. -/
def recently_scheduled (worker_email day : String) (shift_start : ℚ) (schedule : Sched) : Bool :=
  (dayShifts schedule day).any (fun sh =>
    sh.raw_assigned.contains worker_email &&
    decide (|time_to_hour sh.stop - shift_start| < 1/2))

/-! ## `core/scheduler.py`: `create_shifts_from_availability`

The three `random`-dependent sites are modelled by an `Oracle`:
`initPerm` for the initial `random.shuffle(shift_lengths)`, `lenShuffle k`
for the per-iteration `random.shuffle(lengths)`, and `pick k` for
`avail.sort(key=fairness_score)` (whose random tiebreak makes its output an
arbitrary-but-permutation reordering of `avail`). Theorems quantify over all
oracles producing permutations, which covers every draw of the real RNG. -/

structure Oracle where
  initPerm : List ℚ → List ℚ
  lenShuffle : Nat → List ℚ → List ℚ
  pick : Nat → List Worker → List Worker

/-- The oracle realising e.g. a run in which every shuffle happens to return
its input order. -/
def idOracle : Oracle where
  initPerm := fun l => l
  lenShuffle := fun _ l => l
  pick := fun _ l => l

structure St where
  schedule : Sched
  ah : String → ℚ
  unfilled : List Unfilled

/-- The availability × hours-of-operation intersection windows gathered for
one work-study worker. -/
def windowsFor (hop : List (String × List OpInterval)) (w : Worker) :
    List (String × ℚ × ℚ) :=
  hop.foldl (fun acc p =>
    p.2.foldl (fun acc2 op =>
      let op_start := time_to_hour op.start
      let op_end0 := time_to_hour op.stop
      let op_end := if op_end0 ≤ op_start then op_end0 + 24 else op_end0
      (availGet w p.1).foldl (fun acc3 a =>
        let s := max op_start a.start_hour
        let e := min op_end a.end_hour
        if s < e then acc3 ++ [(p.1, s, e)] else acc3)
        acc2)
      acc)
    []

/-- Phase-1 body for one `(day, start, end, duration)` piece: append the
work-study shift unless the exact same slot already holds
`max_workers_per_shift` shifts. -/
def wsApplyShift (max_wps : Nat) (w : Worker) (st : St) (piece : String × ℚ × ℚ × ℚ) : St :=
  let day := piece.1; let s := piece.2.1; let e := piece.2.2.1; let dur := piece.2.2.2
  let slot_start := hour_to_time_str s
  let slot_end := hour_to_time_str e
  let existing := (dayShifts st.schedule day).filter
    (fun sh => sh.start == slot_start && sh.stop == slot_end)
  if existing.length < max_wps then
    { schedule := appendShift st.schedule day
        { start := slot_start, stop := slot_end, assigned := [wname w],
          available := [wname w], raw_assigned := [w.email], all_available := [w],
          is_work_study := true, sh := s, eh := e },
      ah := bump st.ah w.email dur,
      unfilled := st.unfilled }
  else st

/-- Phase 1: allocate (up to) 5 hours to each work-study worker. -/
def phase1 (hop : List (String × List OpInterval)) (ws_workers : List Worker)
    (max_wps : Nat) (st0 : St) : St :=
  ws_workers.foldl (fun st w =>
    let optimal := find_optimal_shift_split (windowsFor hop w) 5 true
    optimal.foldl (wsApplyShift max_wps w) st)
    st0

/-- Eligibility filter of the phase-2 carve loop (work-study state checks,
back-to-back check, availability, hour cap). -/
def eligibleWorkers (workers : List Worker) (ws_status : String → Bool) (day : String)
    (cur end_shift dur max_hours : ℚ) (st : St) : List Worker :=
  workers.filter (fun x =>
    (if ws_status x.email then
      decide (st.ah x.email < 5) && !(decide (st.ah x.email = 0))
     else true) &&
    !(recently_scheduled x.email day cur st.schedule) &&
    is_worker_available x day cur end_shift &&
    decide (st.ah x.email + dur ≤ max_hours))

/-- One phase-2 carve iteration body, used by the fuelled loop below. -/
def carveStep (workers : List Worker) (ws_status : String → Bool) (max_hours : ℚ)
    (max_wps : Nat) (orc : Oracle) (day : String) (e0 : ℚ) (lengthsBase : List ℚ)
    (cur : ℚ) (stk : St × Nat) : (St × Nat) × ℚ :=
  let st := stk.1; let k := stk.2
  let lengths := orc.lenShuffle k lengthsBase
  let len := (lengths.find? (fun l => decide (cur + l ≤ e0))).getD (lengths.headD 0)
  let end_shift := min (cur + len) e0
  let dur := end_shift - cur
  let avail := eligibleWorkers workers ws_status day cur end_shift dur max_hours st
  let chosen := (orc.pick (k + 1) avail).take max_wps
  let ah2 := chosen.foldl (fun a x => bump a x.email dur) st.ah
  let sched2 := chosen.foldl (fun sc x =>
    appendShift sc day
      { start := hour_to_time_str cur, stop := hour_to_time_str end_shift,
        assigned := [wname x], available := avail.map wname,
        raw_assigned := [x.email], all_available := avail,
        is_work_study := false, sh := cur, eh := end_shift })
    st.schedule
  let seats := max_wps - chosen.length
  let unf2 := st.unfilled ++ (List.range seats).map (fun _ =>
    { day := day, start := hour_to_time_str cur, stop := hour_to_time_str end_shift,
      start_hour := cur, end_hour := end_shift })
  let sched3 := (List.range seats).foldl (fun sc _ =>
    appendShift sc day
      { start := hour_to_time_str cur, stop := hour_to_time_str end_shift,
        assigned := ["Unfilled"], available := avail.map wname,
        raw_assigned := [], all_available := avail,
        is_work_study := false, sh := cur, eh := end_shift })
    sched2
  (({ schedule := sched3, ah := ah2, unfilled := unf2 }, k + 2), end_shift)

/-- The `while cur < e0` carve loop, on fuel (the code advances `cur` by ≥ 2
per iteration, so the fuel chosen below never runs out on real inputs;
the safety theorems hold for every fuel value). -/
def carve (workers : List Worker) (ws_status : String → Bool) (max_hours : ℚ)
    (max_wps : Nat) (orc : Oracle) (day : String) (e0 : ℚ) (lengthsBase : List ℚ) :
    Nat → ℚ → St × Nat → St × Nat
  | 0, _, stk => stk
  | fuel + 1, cur, stk =>
    if cur < e0 then
      let r := carveStep workers ws_status max_hours max_wps orc day e0 lengthsBase cur stk
      carve workers ws_status max_hours max_wps orc day e0 lengthsBase fuel r.2 r.1
    else stk

/-- Interval subtraction of one already-scheduled block from the free slots. -/
def subOne (free : List (ℚ × ℚ)) (b : ℚ × ℚ) : List (ℚ × ℚ) :=
  free.foldl (fun new_free p =>
    let s0 := p.1; let e0 := p.2
    if e0 ≤ b.1 ∨ b.2 ≤ s0 then new_free ++ [(s0, e0)]
    else
      (if s0 < b.1 then new_free ++ [(s0, b.1)] else new_free) ++
      (if b.2 < e0 then [(b.2, e0)] else []))
    []

def subtractBlocks (blocks : List (ℚ × ℚ)) (init : List (ℚ × ℚ)) : List (ℚ × ℚ) :=
  blocks.foldl subOne init

def slotFuel (s0 e0 : ℚ) : Nat := (⌈e0 - s0⌉).toNat + 2

/-- Phase-2 processing of one free slot. -/
def doSlot (workers : List Worker) (ws_status : String → Bool) (shift_lengths : List ℚ)
    (max_hours : ℚ) (max_wps : Nat) (orc : Oracle) (day : String)
    (stk : St × Nat) (slot : ℚ × ℚ) : St × Nat :=
  let s0 := slot.1; let e0 := slot.2
  if e0 - s0 < 2 then stk
  else
    let lengthsBase :=
      match shift_lengths.filter (fun l => decide (l ≤ e0 - s0)) with
      | [] => [2]
      | ls => ls
    carve workers ws_status max_hours max_wps orc day e0 lengthsBase
      (slotFuel s0 e0) s0 stk

/-- Phase-2 processing of one hours-of-operation block. -/
def doOp (workers : List Worker) (ws_status : String → Bool) (shift_lengths : List ℚ)
    (max_hours : ℚ) (max_wps : Nat) (orc : Oracle) (day : String)
    (stk : St × Nat) (op : OpInterval) : St × Nat :=
  let op_start := time_to_hour op.start
  let op_end0 := time_to_hour op.stop
  let op_end := if op_end0 ≤ op_start then op_end0 + 24 else op_end0
  let blocks := (dayShifts stk.1.schedule day).map
    (fun sh => (time_to_hour sh.start, time_to_hour sh.stop))
  let free_slots := subtractBlocks blocks [(op_start, op_end)]
  let sorted_slots := sortByKey (fun p => p.2 - p.1) free_slots
  sorted_slots.foldl (doSlot workers ws_status shift_lengths max_hours max_wps orc day) stk

/-- Phase-2 processing of one day. -/
def doDay (hop : List (String × List OpInterval)) (workers : List Worker)
    (ws_status : String → Bool) (shift_lengths : List ℚ) (max_hours : ℚ) (max_wps : Nat)
    (orc : Oracle) (stk : St × Nat) (day : String) : St × Nat :=
  let ops := (dlookup hop day).getD []
  if ops = [] then stk
  else
    let stk := (⟨ensureDay stk.1.schedule day, stk.1.ah, stk.1.unfilled⟩, stk.2)
    ops.foldl (doOp workers ws_status shift_lengths max_hours max_wps orc day) stk

/-- Phase 2: fill the remaining hours-of-operation windows, days in
`config.DAYS` order. -/
def phase2 (hop : List (String × List OpInterval)) (workers : List Worker)
    (ws_status : String → Bool) (shift_lengths : List ℚ) (max_hours : ℚ) (max_wps : Nat)
    (orc : Oracle) (st0 : St) : St :=
  let days := sortByKey (listIndex DAYS) (hop.map Prod.fst)
  (days.foldl (doDay hop workers ws_status shift_lengths max_hours max_wps orc) (st0, 0)).1

/-- The 8-tuple returned by `create_shifts_from_availability`, as a structure. -/
structure Result where
  schedule : Sched
  assigned_hours : String → ℚ
  low_hours : List String
  unassigned : List String
  alt_sols : List (String × List String)
  unfilled_shifts : List Unfilled
  ws_issues : List String
  min_hours_issues : List String

/-- Python `str(float)` stand-in used only inside issue messages; theorems
never depend on the digits it produces. -/
def fmtQ (q : ℚ) : String :=
  if q.den = 1 then intRepr q.num ++ ".0" else intRepr q.num ++ "/" ++ natRepr q.den

/-- `scheduler.create_shifts_from_availability` (the direct-arguments call
path; the `workplace_id` fetch path only swaps in data from the database
before reaching the same guard). -/
def create_shifts_from_availability (hop : List (String × List OpInterval))
    (workers : List Worker) (max_hours_per_worker : ℚ) (max_workers_per_shift : Nat)
    (min_hours_per_worker : ℚ) (orc : Oracle) : Result :=
  if hop = [] ∨ workers = [] then
    ⟨[], fun _ => 0, [], [], [], [], [], []⟩
  else
    let shift_lengths := orc.initPerm [2, 3, 4, 5]
    let ws_status : String → Bool := fun em =>
      ((workers.reverse.find? (fun w => w.email == em)).map Worker.work_study).getD false
    let availability_hours : String → ℚ := fun em =>
      ((workers.reverse.find? (fun w => w.email == em)).map calculate_availability_hours).getD 0
    let ws_workers :=
      sortByKey (fun w => availability_hours w.email)
        (workers.filter (fun w => ws_status w.email))
    let ws_availability_issues := check_work_study_availability ws_workers hop
    let initial_ws_issues := ws_availability_issues.map
      (fun p => wname p.1 ++ ": " ++ p.2)
    let st1 := phase1 hop ws_workers max_workers_per_shift ⟨[], fun _ => 0, []⟩
    let stF := phase2 hop workers ws_status shift_lengths max_hours_per_worker
      max_workers_per_shift orc st1
    let assigned_hours := stF.ah
    let low_hours := (workers.filter (fun w =>
      !(ws_status w.email) && decide (assigned_hours w.email < 4))).map wname
    let unassigned := (workers.filter (fun w =>
      decide (assigned_hours w.email = 0))).map wname
    let ws_issues := initial_ws_issues ++
      ((workers.filter (fun w =>
          ws_status w.email && !(decide (assigned_hours w.email = 5)) &&
          !((initial_ws_issues.map (fun issue => (pySplit issue ':').headD "")).contains
            (wname w)))).map
        (fun w => wname w ++ " (" ++ fmtQ (assigned_hours w.email) ++ "h)"))
    let min_hours_issues := (workers.filter (fun w =>
      !(ws_status w.email) && decide (assigned_hours w.email < min_hours_per_worker))).map wname
    let alt_sols := stF.unfilled.foldl (fun d us =>
      let key := us.day ++ " " ++ us.start ++ "-" ++ us.stop
      let sols := find_alternative_workers workers us.day us.start_hour us.end_hour
        assigned_hours (max_hours_per_worker * (3/2)) []
      if sols = [] then d else dinsert d key (sols.map wname))
      []
    ⟨stF.schedule, assigned_hours, low_hours, unassigned, alt_sols, stF.unfilled,
      ws_issues, min_hours_issues⟩

/-- Total duration of a list of shift pieces. -/
def sumDur (l : List (String × ℚ × ℚ × ℚ)) : ℚ := (l.map (fun q => q.2.2.2)).sum

def totalWin (ws : List (String × ℚ × ℚ)) : ℚ := (ws.map (fun p => p.2.2 - p.2.1)).sum

/-! ## Concrete probe inputs -/

/-- Work-study worker whose windows are 2.8h + 2h (Monday) and 2h (Tuesday):
total 6.8h ≥ 5h, and the 2.8h window is inside the ±0.2h tolerance of the
3h+2h split search. -/
def wsSplitProbe : Worker :=
  ⟨"Work", "Study", "ws@x", true,
    [("Monday", [⟨9, 59/5⟩, ⟨12, 14⟩]), ("Tuesday", [⟨9, 11⟩])]⟩

def hopMonTue : List (String × List OpInterval) :=
  [("Monday", [⟨"09:00", "17:00"⟩]), ("Tuesday", [⟨"09:00", "17:00"⟩])]

/-- Two work-study workers with identical 5h Monday availability. -/
def wsTwinA : Worker := ⟨"Alpha", "One", "a@x", true, [("Monday", [⟨9, 14⟩])]⟩

def wsTwinB : Worker := ⟨"Beta", "Two", "b@x", true, [("Monday", [⟨9, 14⟩])]⟩

def hopMon5 : List (String × List OpInterval) := [("Monday", [⟨"09:00", "14:00"⟩])]

/-- Work-study worker with two overlapping Monday availability intervals. -/
def wsOverlap : Worker := ⟨"Over", "Lap", "ov@x", true, [("Monday", [⟨9, 12⟩, ⟨10, 12⟩])]⟩

def hopMon3 : List (String × List OpInterval) := [("Monday", [⟨"09:00", "12:00"⟩])]

/-- Regular worker with no availability at all. -/
def regIdle : Worker := ⟨"Reg", "Guy", "reg@x", false, []⟩

def hopMon2 : List (String × List OpInterval) := [("Monday", [⟨"09:00", "11:00"⟩])]

/-- Regular worker available exactly over `hopMon2`. -/
def regClean : Worker := ⟨"Clean", "Fit", "cf@x", false, [("Monday", [⟨9, 11⟩])]⟩

/-! ## Definitions for the overlap-safety analysis -/

/-- Whole-minute rationals: the values `time_to_hour`/`hour_to_time_str`
round-trip exactly, closed under the scheduler's interval algebra. -/
def isQ60 (q : ℚ) : Prop := ∃ k : ℤ, q = (k : ℚ) / 60

/-- Decidable check for whole-minute rationals. -/
def q60 (q : ℚ) : Bool := (q * 60).den == 1

/-- Interval disjointness, in the program's `max < min` overlap convention. -/
def disjQ (a b : ℚ × ℚ) : Prop := ¬(max a.1 b.1 < min a.2 b.2)

/-- Well-formed shift: its time strings are the formatted ghost bounds,
which are whole-minute and ordered. -/
def shiftWF (sh : Shift) : Prop :=
  sh.start = hour_to_time_str sh.sh ∧ sh.stop = hour_to_time_str sh.eh ∧
  isQ60 sh.sh ∧ isQ60 sh.eh ∧ sh.sh ≤ sh.eh

/-- Two shifts may coexist on one day: both work-study, or disjoint in time,
or assigned to disjoint workers. -/
def rawOk (a b : Shift) : Prop :=
  (a.is_work_study = true ∧ b.is_work_study = true) ∨
  disjQ (a.sh, a.eh) (b.sh, b.eh) ∨
  ∀ em, em ∈ a.raw_assigned → em ∉ b.raw_assigned

/-- Every shift of the schedule is well-formed. -/
def allWF (sc : Sched) : Prop := ∀ d, ∀ sh ∈ dayShifts sc d, shiftWF sh

/-- Every shift of the schedule is a work-study shift. -/
def allWS (sc : Sched) : Prop := ∀ d, ∀ sh ∈ dayShifts sc d, sh.is_work_study = true

/-! ## Generic fold/loop preservation -/

lemma foldl_preserve {α β : Type} (P : β → Prop) (step : β → α → β) (l : List α)
    (hstep : ∀ b a, a ∈ l → P b → P (step b a)) (b : β) (hb : P b) :
    P (l.foldl step b) := by
  induction l generalizing b with
  | nil => exact hb
  | cons x xs ih =>
    exact ih (fun b' a ha hb' => hstep b' a (List.mem_cons_of_mem x ha) hb')
      (step b x) (hstep b x (List.mem_cons_self x xs) hb)

lemma carve_preserve (P : St × Nat → Prop) (workers : List Worker)
    (ws_status : String → Bool) (maxH : ℚ) (maxWps : Nat) (orc : Oracle) (day : String)
    (e0 : ℚ) (lb : List ℚ)
    (hstep : ∀ cur stk, P stk →
      P (carveStep workers ws_status maxH maxWps orc day e0 lb cur stk).1) :
    ∀ fuel cur stk, P stk → P (carve workers ws_status maxH maxWps orc day e0 lb fuel cur stk) := by
  intro fuel
  induction fuel with
  | zero => intro cur stk h; exact h
  | succ f ih =>
    intro cur stk h
    unfold carve
    split
    · exact ih _ _ (hstep cur stk h)
    · exact h

/-! ## Assigned-hours bookkeeping lemmas -/

lemma bump_same (ah : String → ℚ) (em : String) (d : ℚ) : bump ah em d em = ah em + d := by
  simp [bump]

lemma bump_other (ah : String → ℚ) (em x : String) (d : ℚ) (h : x ≠ em) :
    bump ah em d x = ah x := by
  simp [bump, h]

lemma foldl_bump_emails (dur : ℚ) : ∀ (ch : List Worker) (ah : String → ℚ) (em : String),
    ((ch.map Worker.email).Nodup) →
    (ch.foldl (fun a x => bump a x.email dur) ah) em =
      if em ∈ ch.map Worker.email then ah em + dur else ah em := by
  intro ch
  induction ch with
  | nil => intro ah em _; simp
  | cons x xs ih =>
    intro ah em hnd
    simp only [List.map_cons, List.nodup_cons] at hnd
    simp only [List.foldl_cons, List.map_cons]
    rw [ih _ em hnd.2]
    by_cases hx : em = x.email
    · subst hx
      rw [if_neg (fun hmem => hnd.1 hmem), if_pos (List.mem_cons_self _ _), bump_same]
    · rw [bump_other _ _ _ _ hx]
      by_cases hmem : em ∈ xs.map Worker.email
      · rw [if_pos hmem, if_pos (List.mem_cons_of_mem _ hmem)]
      · rw [if_neg hmem, if_neg (by
          intro hc
          rcases List.mem_cons.mp hc with hc | hc
          · exact hx hc
          · exact hmem hc)]

lemma eligible_sub_workers {workers : List Worker} {ws_status : String → Bool} {day : String}
    {cur endS dur maxH : ℚ} {st : St} :
    ∀ x ∈ eligibleWorkers workers ws_status day cur endS dur maxH st, x ∈ workers := by
  intro x hx
  exact List.mem_of_mem_filter hx

lemma eligible_cap {workers : List Worker} {ws_status : String → Bool} {day : String}
    {cur endS dur maxH : ℚ} {st : St} :
    ∀ x ∈ eligibleWorkers workers ws_status day cur endS dur maxH st,
      st.ah x.email + dur ≤ maxH := by
  intro x hx
  have h := List.of_mem_filter hx
  simp only [Bool.and_eq_true, decide_eq_true_eq] at h
  exact h.2

lemma eligible_ws_state {workers : List Worker} {ws_status : String → Bool} {day : String}
    {cur endS dur maxH : ℚ} {st : St} :
    ∀ x ∈ eligibleWorkers workers ws_status day cur endS dur maxH st,
      ws_status x.email = true → st.ah x.email < 5 ∧ st.ah x.email ≠ 0 := by
  intro x hx hws
  have h := List.of_mem_filter hx
  simp only [Bool.and_eq_true, decide_eq_true_eq] at h
  have h1 := h.1.1.1
  rw [hws] at h1
  simp only [if_true, Bool.and_eq_true, decide_eq_true_eq, Bool.not_eq_true',
    decide_eq_false_iff_not] at h1
  exact ⟨h1.1, h1.2⟩

lemma avail_emails_nodup {workers : List Worker} {ws_status : String → Bool} {day : String}
    {cur endS dur maxH : ℚ} {st : St} (hnd : (workers.map Worker.email).Nodup) :
    ((eligibleWorkers workers ws_status day cur endS dur maxH st).map Worker.email).Nodup :=
  hnd.sublist ((List.filter_sublist workers).map Worker.email)

/-- Facts about `chosen = pick(avail).take maxWps` under a permutation
oracle: membership in `avail` and distinct emails. -/
lemma chosen_sub_and_nodup {orc : Oracle} (k : Nat) (avail : List Worker) (mw : Nat)
    (hpick : ∀ k l, (orc.pick k l).Perm l)
    (hnd : (avail.map Worker.email).Nodup) :
    (∀ x ∈ (orc.pick k avail).take mw, x ∈ avail) ∧
    (((orc.pick k avail).take mw).map Worker.email).Nodup := by
  constructor
  · intro x hx
    exact ((hpick k avail).mem_iff).mp (List.mem_of_mem_take hx)
  · have h2 : ((orc.pick k avail).map Worker.email).Nodup :=
      (((hpick k avail).map Worker.email).nodup_iff).mpr hnd
    rw [List.map_take]
    exact h2.sublist (List.take_sublist mw _)

lemma ah2_bound (st : St) (dur maxH : ℚ) (avail chosen : List Worker)
    (hch_sub : ∀ x ∈ chosen, x ∈ avail) (hchn : (chosen.map Worker.email).Nodup)
    (hcap : ∀ x ∈ avail, st.ah x.email + dur ≤ maxH)
    (hb : ∀ em, st.ah em ≤ max 5 maxH) (em : String) :
    (chosen.foldl (fun a x => bump a x.email dur) st.ah) em ≤ max 5 maxH := by
  rw [foldl_bump_emails _ _ _ _ hchn]
  split
  · next hmem =>
    obtain ⟨x, hxch, hxe⟩ := List.mem_map.mp hmem
    have hx := hcap x (hch_sub x hxch)
    rw [hxe] at hx
    exact le_trans hx (le_max_right 5 maxH)
  · exact hb em

/-- `carveStep` keeps every assigned-hours value at or below
`max 5 max_hours` (each bump is guarded by the cap check in the
eligibility filter). -/
lemma carveStep_ah_bound {workers : List Worker} {ws_status : String → Bool} {maxH : ℚ}
    {maxWps : Nat} {orc : Oracle} {day : String} {e0 : ℚ} {lb : List ℚ}
    (hnd : (workers.map Worker.email).Nodup)
    (hpick : ∀ k l, (orc.pick k l).Perm l)
    (cur : ℚ) (stk : St × Nat) (hb : ∀ em, stk.1.ah em ≤ max 5 maxH) :
    ∀ em, ((carveStep workers ws_status maxH maxWps orc day e0 lb cur stk).1).1.ah em ≤
      max 5 maxH := by
  intro em
  dsimp only [carveStep]
  exact ah2_bound stk.1 _ maxH _ _
    (fun x hx => (chosen_sub_and_nodup _ _ _ hpick (avail_emails_nodup hnd)).1 x hx)
    ((chosen_sub_and_nodup _ _ _ hpick (avail_emails_nodup hnd)).2)
    (fun x hx => eligible_cap x hx) hb em

/-! ## Phase-1 assigned-hours lemmas -/

lemma wsApply_ah_other (mw : Nat) (w : Worker) :
    ∀ (pieces : List (String × ℚ × ℚ × ℚ)) (st : St) (em : String), em ≠ w.email →
    ((pieces.foldl (wsApplyShift mw w) st).ah) em = st.ah em := by
  intro pieces
  induction pieces with
  | nil => intro st em _; rfl
  | cons p ps ih =>
    intro st em hem
    simp only [List.foldl_cons]
    rw [ih _ em hem]
    simp only [wsApplyShift]
    split
    · exact bump_other _ _ _ _ hem
    · rfl

lemma wsApply_ah_self (mw : Nat) (w : Worker) :
    ∀ (pieces : List (String × ℚ × ℚ × ℚ)) (st : St),
    (∀ q ∈ pieces, 0 ≤ q.2.2.2) →
    ((pieces.foldl (wsApplyShift mw w) st).ah) w.email ≤ st.ah w.email + sumDur pieces := by
  intro pieces
  induction pieces with
  | nil => intro st _; simp [sumDur]
  | cons p ps ih =>
    intro st hdur
    simp only [List.foldl_cons]
    have hstep : (wsApplyShift mw w st p).ah w.email ≤ st.ah w.email + p.2.2.2 := by
      simp only [wsApplyShift]
      split
      · exact le_of_eq (bump_same st.ah w.email p.2.2.2)
      · exact le_add_of_nonneg_right (hdur p (List.mem_cons_self _ _))
    calc ((ps.foldl (wsApplyShift mw w) (wsApplyShift mw w st p)).ah) w.email
        ≤ (wsApplyShift mw w st p).ah w.email + sumDur ps :=
          ih _ (fun q hq => hdur q (List.mem_cons_of_mem _ hq))
      _ ≤ st.ah w.email + p.2.2.2 + sumDur ps := by linarith
      _ = st.ah w.email + sumDur (p :: ps) := by simp [sumDur]; ring

/-! ## `find_optimal_shift_split` piece lemmas -/

lemma perfect32_spec {windows : List (String × ℚ × ℚ)} {r : List (String × ℚ × ℚ × ℚ)}
    (h : perfect32 windows = some r) :
    ∃ d1 s1 e1 d2 s2 e2, (d1, s1, e1) ∈ windows ∧ (d2, s2, e2) ∈ windows ∧
      14/5 ≤ e1 - s1 ∧ e1 - s1 ≤ 16/5 ∧ 9/5 ≤ e2 - s2 ∧ e2 - s2 ≤ 11/5 ∧
      r = [(d1, s1, s1 + 3, 3), (d2, s2, s2 + 2, 2)] := by
  obtain ⟨p, hp, hfp⟩ := List.exists_of_findSome?_eq_some h
  have hpw : p.2 ∈ windows := by
    have := List.mem_iff_get.mp hp
    obtain ⟨i, hi⟩ := this
    have : p.2 ∈ windows.enum.map Prod.snd := List.mem_map_of_mem Prod.snd hp
    rwa [List.enum_map_snd] at this
  split at hfp
  · next hcond =>
    obtain ⟨q, hq, hfq⟩ := List.exists_of_findSome?_eq_some hfp
    have hqw : q.2 ∈ windows := by
      have : q.2 ∈ windows.enum.map Prod.snd := List.mem_map_of_mem Prod.snd hq
      rwa [List.enum_map_snd] at this
    split at hfq
    · next hcond2 =>
      refine ⟨p.2.1, p.2.2.1, p.2.2.2, q.2.1, q.2.2.1, q.2.2.2, ?_, ?_, hcond.1, hcond.2,
        hcond2.2.1, hcond2.2.2, ?_⟩
      · simpa using hpw
      · simpa using hqw
      · exact (Option.some.injEq _ _).mp hfq |>.symm ▸ rfl
    · exact absurd hfq (by simp)
  · exact absurd hfp (by simp)

lemma greedy_pieces : ∀ (ws : List (String × ℚ × ℚ)) (rem : ℚ) (pf : Bool),
    (∀ p ∈ ws, 0 ≤ p.2.2 - p.2.1) → 0 ≤ rem →
    (∀ q ∈ greedyConsume ws rem pf,
      (∃ p ∈ ws, q.2.1 = p.2.1 ∨ q.2.1 = p.2.1 + 3) ∧
      q.2.2.2 = q.2.2.1 - q.2.1 ∧ 0 ≤ q.2.2.2) ∧
    sumDur (greedyConsume ws rem pf) ≤ rem ∧
    (totalWin ws ≥ rem → sumDur (greedyConsume ws rem pf) = rem)
  | [], rem, pf => by
    intro _ hrem
    refine ⟨by simp [greedyConsume], by simpa [greedyConsume, sumDur] using hrem, ?_⟩
    intro htot
    simp only [totalWin, List.map_nil, List.sum_nil] at htot
    simp [greedyConsume, sumDur]
    linarith
  | (day, s, e) :: rest, rem, pf => by
    intro hws hrem
    by_cases hr0 : rem ≤ 0
    · have hrem0 : rem = 0 := le_antisymm hr0 hrem
      subst hrem0
      refine ⟨by simp [greedyConsume], by simp [greedyConsume, sumDur], ?_⟩
      intro _
      simp [greedyConsume, sumDur]
    · by_cases hsplit : pf = true ∧ 9/2 ≤ e - s ∧ rem = 5
      · have hgr : greedyConsume ((day, s, e) :: rest) rem pf =
            [(day, s, s + 3, 3), (day, s + 3, s + 5, 2)] := by
          rw [greedyConsume, if_neg hr0, if_pos ⟨by simp [hsplit.1], hsplit.2.1, hsplit.2.2⟩]
        rw [hgr]
        refine ⟨?_, ?_, ?_⟩
        · intro q hq
          rcases List.mem_cons.mp hq with rfl | hq2
          · exact ⟨⟨(day, s, e), List.mem_cons_self _ _, Or.inl rfl⟩, by ring, by norm_num⟩
          · rcases List.mem_cons.mp hq2 with rfl | hq3
            · exact ⟨⟨(day, s, e), List.mem_cons_self _ _, Or.inr rfl⟩, by ring, by norm_num⟩
            · simp at hq3
        · simp only [sumDur, List.map_cons, List.map_nil, List.sum_cons, List.sum_nil,
            hsplit.2.2]
          norm_num
        · intro _
          simp only [sumDur, List.map_cons, List.map_nil, List.sum_cons, List.sum_nil,
            hsplit.2.2]
          norm_num
      · have hw0 : (0:ℚ) ≤ e - s := hws (day, s, e) (List.mem_cons_self _ _)
        have hwsrest : ∀ p ∈ rest, 0 ≤ p.2.2 - p.2.1 :=
          fun p hp => hws p (List.mem_cons_of_mem _ hp)
        have htk0 : 0 ≤ min (e - s) rem := le_min hw0 hrem
        have htkr : min (e - s) rem ≤ rem := min_le_right _ _
        have hrec := greedy_pieces rest (rem - min (e - s) rem) pf hwsrest (by linarith)
        have hgr : greedyConsume ((day, s, e) :: rest) rem pf =
            (day, s, s + min (e - s) rem, min (e - s) rem) ::
              greedyConsume rest (rem - min (e - s) rem) pf := by
          rw [greedyConsume, if_neg hr0, if_neg (by
            intro hc
            exact hsplit ⟨by simp [hc.1], hc.2.1, hc.2.2⟩)]
        rw [hgr]
        refine ⟨?_, ?_, ?_⟩
        · intro q hq
          rcases List.mem_cons.mp hq with rfl | hq2
          · exact ⟨⟨(day, s, e), List.mem_cons_self _ _, Or.inl rfl⟩, by ring, htk0⟩
          · obtain ⟨⟨p, hp, hps⟩, hd, hd0⟩ := hrec.1 q hq2
            exact ⟨⟨p, List.mem_cons_of_mem _ hp, hps⟩, hd, hd0⟩
        · have := hrec.2.1
          simp only [sumDur, List.map_cons, List.sum_cons]
          show min (e - s) rem + sumDur (greedyConsume rest (rem - min (e - s) rem) pf) ≤ rem
          linarith
        · intro htot
          simp only [totalWin, List.map_cons, List.sum_cons] at htot
          have hsr : (0:ℚ) ≤ (rest.map (fun p => p.2.2 - p.2.1)).sum := by
            apply List.sum_nonneg
            intro x hx
            obtain ⟨p, hp, rfl⟩ := List.mem_map.mp hx
            exact hwsrest p hp
          have htotrest : totalWin rest ≥ rem - min (e - s) rem := by
            simp only [totalWin]
            rcases min_cases (e - s) rem with ⟨hmin, _⟩ | ⟨hmin, _⟩ <;> rw [hmin] <;> linarith
          have := hrec.2.2 htotrest
          simp only [sumDur, List.map_cons, List.sum_cons]
          show min (e - s) rem + sumDur (greedyConsume rest (rem - min (e - s) rem) pf) = rem
          rw [show sumDur (greedyConsume rest (rem - min (e - s) rem) pf) =
            rem - min (e - s) rem from this]
          ring

/-- Pieces returned by the 5-hour optimal split: every duration is
nonnegative and equals end − start; their sum never exceeds 5 and equals 5
exactly when the windows offer at least 5 hours. -/
lemma optimal_pieces (windows : List (String × ℚ × ℚ))
    (hlt : ∀ p ∈ windows, p.2.1 < p.2.2) :
    (∀ q ∈ find_optimal_shift_split windows 5 true,
      0 ≤ q.2.2.2 ∧ q.2.2.2 = q.2.2.1 - q.2.1) ∧
    sumDur (find_optimal_shift_split windows 5 true) ≤ 5 ∧
    (5 ≤ totalWin windows → sumDur (find_optimal_shift_split windows 5 true) = 5) := by
  unfold find_optimal_shift_split
  split
  · next h =>
    refine ⟨by simp, by simp [sumDur], ?_⟩
    rcases h with rfl | h5
    · intro htot
      simp only [totalWin, List.map_nil, List.sum_nil] at htot
      norm_num at htot
    · norm_num at h5
  · next hne =>
    dsimp only
    rw [if_pos (⟨rfl, rfl⟩ : true = true ∧ (5:ℚ) = 5)]
    by_cases htlt : (windows.map (fun p => p.2.2 - p.2.1)).sum < 5
    · rw [if_pos htlt]
      refine ⟨?_, ?_, ?_⟩
      · intro q hq
        obtain ⟨p, hp, rfl⟩ := List.mem_map.mp hq
        exact ⟨le_of_lt (sub_pos.mpr (hlt p hp)), rfl⟩
      · have hsum : sumDur (windows.map (fun p => (p.1, p.2.1, p.2.2, p.2.2 - p.2.1))) =
            totalWin windows := by
          simp only [sumDur, totalWin, List.map_map]
          congr 1
        rw [hsum]
        exact le_of_lt htlt
      · intro htot
        exact absurd htlt (not_lt.mpr htot)
    · rw [if_neg htlt]
      cases hperf : perfect32 windows with
      | some r =>
        simp only [hperf]
        obtain ⟨d1, s1, e1, d2, s2, e2, _, _, h28, _, h18, _, hr⟩ := perfect32_spec hperf
        subst hr
        refine ⟨?_, ?_, ?_⟩
        · intro q hq
          rcases List.mem_cons.mp hq with rfl | hq2
          · exact ⟨by norm_num, by ring⟩
          · rcases List.mem_cons.mp hq2 with rfl | hq3
            · exact ⟨by norm_num, by ring⟩
            · simp at hq3
        · simp only [sumDur, List.map_cons, List.map_nil, List.sum_cons, List.sum_nil]
          norm_num
        · intro _
          simp only [sumDur, List.map_cons, List.map_nil, List.sum_cons, List.sum_nil]
          norm_num
      | none =>
        simp only [hperf]
        have hperm := List.perm_insertionSort
          (fun (a b : String × ℚ × ℚ) => a.2.2 - a.2.1 ≤ b.2.2 - b.2.1) windows
        have hws : ∀ p ∈ sortByKey (fun p : String × ℚ × ℚ => p.2.2 - p.2.1) windows,
            0 ≤ p.2.2 - p.2.1 := by
          intro p hp
          exact le_of_lt (sub_pos.mpr (hlt p (hperm.mem_iff.mp hp)))
        have htw : totalWin (sortByKey (fun p : String × ℚ × ℚ => p.2.2 - p.2.1) windows) =
            totalWin windows := by
          simp only [totalWin]
          exact (hperm.map (fun p => p.2.2 - p.2.1)).sum_eq
        have hg := greedy_pieces
          (sortByKey (fun p : String × ℚ × ℚ => p.2.2 - p.2.1) windows) 5 true hws
          (by norm_num)
        refine ⟨fun q hq => ⟨(hg.1 q hq).2.2, (hg.1 q hq).2.1⟩, hg.2.1, ?_⟩
        intro htot
        refine hg.2.2 ?_
        rw [show totalWin (sortByKey (fun p : String × ℚ × ℚ => p.2.2 - p.2.1) windows) =
          totalWin windows from htw]
        exact htot

lemma window_append_lt {acc : List (String × ℚ × ℚ)} (d : String) (s e : ℚ)
    (hacc : ∀ p ∈ acc, p.2.1 < p.2.2) :
    ∀ p ∈ (if s < e then acc ++ [(d, s, e)] else acc), p.2.1 < p.2.2 := by
  split
  · next hcond =>
    intro p hp
    rcases List.mem_append.mp hp with h | h
    · exact hacc p h
    · rw [List.mem_singleton.mp h]
      exact hcond
  · exact hacc

lemma windowsFor_lt (hop : List (String × List OpInterval)) (w : Worker) :
    ∀ p ∈ windowsFor hop w, p.2.1 < p.2.2 := by
  unfold windowsFor
  refine foldl_preserve
    (fun (acc : List (String × ℚ × ℚ)) => ∀ p ∈ acc, p.2.1 < p.2.2) _ hop ?_ [] (by simp)
  intro acc dayops _ hacc
  refine foldl_preserve
    (fun (acc : List (String × ℚ × ℚ)) => ∀ p ∈ acc, p.2.1 < p.2.2) _ dayops.2 ?_ acc hacc
  intro acc2 op _ hacc2
  dsimp only
  refine foldl_preserve
    (fun (acc : List (String × ℚ × ℚ)) => ∀ p ∈ acc, p.2.1 < p.2.2) _ (availGet w dayops.1)
    ?_ acc2 hacc2
  intro acc3 a _ hacc3
  dsimp only
  exact window_append_lt _ _ _ hacc3

/-! ## Phase-level assigned-hours bounds -/

lemma phase1_fold_ah_le5 (hop : List (String × List OpInterval)) (mw : Nat) :
    ∀ (ws : List Worker) (st : St), ((ws.map Worker.email).Nodup) →
    (∀ w ∈ ws, st.ah w.email = 0) → (∀ em, st.ah em ≤ 5) →
    ∀ em, (ws.foldl (fun st w =>
      (find_optimal_shift_split (windowsFor hop w) 5 true).foldl (wsApplyShift mw w) st)
      st).ah em ≤ 5 := by
  intro ws
  induction ws with
  | nil => intro st _ _ hb em; exact hb em
  | cons w rest ih =>
    intro st hnd h0 hb em
    simp only [List.map_cons, List.nodup_cons] at hnd
    simp only [List.foldl_cons]
    have hpieces := optimal_pieces (windowsFor hop w) (windowsFor_lt hop w)
    have hdurs : ∀ q ∈ find_optimal_shift_split (windowsFor hop w) 5 true, 0 ≤ q.2.2.2 :=
      fun q hq => (hpieces.1 q hq).1
    have hother := wsApply_ah_other mw w (find_optimal_shift_split (windowsFor hop w) 5 true)
    have hself := wsApply_ah_self mw w (find_optimal_shift_split (windowsFor hop w) 5 true)
      st hdurs
    refine ih _ hnd.2 ?_ ?_ em
    · intro r hr
      rw [hother st r.email (by
        intro he
        exact hnd.1 (he ▸ List.mem_map_of_mem Worker.email hr))]
      exact h0 r (List.mem_cons_of_mem _ hr)
    · intro em'
      by_cases hem : em' = w.email
      · subst hem
        calc ((find_optimal_shift_split (windowsFor hop w) 5 true).foldl
              (wsApplyShift mw w) st).ah w.email
            ≤ st.ah w.email + sumDur (find_optimal_shift_split (windowsFor hop w) 5 true) :=
              hself
          _ ≤ 0 + 5 := by
              have := h0 w (List.mem_cons_self _ _)
              have h2 := hpieces.2.1
              linarith
          _ = 5 := by norm_num
      · rw [hother st em' hem]
        exact hb em'

lemma phase1_ah_le5 (hop : List (String × List OpInterval)) (ws : List Worker) (mw : Nat)
    (hnd : (ws.map Worker.email).Nodup) :
    ∀ em, (phase1 hop ws mw ⟨[], fun _ => 0, []⟩).ah em ≤ 5 := by
  unfold phase1
  exact phase1_fold_ah_le5 hop mw ws ⟨[], fun _ => 0, []⟩ hnd (fun _ _ => rfl)
    (fun _ => by norm_num)

lemma phase2_ah_bound (hop : List (String × List OpInterval)) (workers : List Worker)
    (ws_status : String → Bool) (sl : List ℚ) (maxH : ℚ) (maxWps : Nat) (orc : Oracle)
    (st0 : St) (hnd : (workers.map Worker.email).Nodup)
    (hpick : ∀ k l, (orc.pick k l).Perm l)
    (hb : ∀ em, st0.ah em ≤ max 5 maxH) :
    ∀ em, (phase2 hop workers ws_status sl maxH maxWps orc st0).ah em ≤ max 5 maxH := by
  unfold phase2
  have hmain := foldl_preserve (fun (stk : St × Nat) => ∀ em, stk.1.ah em ≤ max 5 maxH)
    (doDay hop workers ws_status sl maxH maxWps orc)
    (sortByKey (listIndex DAYS) (hop.map Prod.fst)) ?_ (st0, 0) hb
  · exact hmain
  · intro stk day _ hstk
    unfold doDay
    dsimp only
    split
    · exact hstk
    · refine foldl_preserve (fun (stk : St × Nat) => ∀ em, stk.1.ah em ≤ max 5 maxH)
        (doOp workers ws_status sl maxH maxWps orc day) _ ?_ _ hstk
      intro stk2 op _ hstk2
      unfold doOp
      dsimp only
      refine foldl_preserve (fun (stk : St × Nat) => ∀ em, stk.1.ah em ≤ max 5 maxH)
        (doSlot workers ws_status sl maxH maxWps orc day) _ ?_ _ hstk2
      intro stk3 slot _ hstk3
      unfold doSlot
      dsimp only
      split
      · exact hstk3
      · exact carve_preserve (fun (stk : St × Nat) => ∀ em, stk.1.ah em ≤ max 5 maxH)
          workers ws_status maxH maxWps orc day slot.2 _
          (fun cur stk4 h4 => carveStep_ah_bound hnd hpick cur stk4 h4)
          (slotFuel slot.1 slot.2) slot.1 stk3 hstk3

/-! ## Worker lookup by email -/

lemma find_email_of_nodup : ∀ (l : List Worker), ((l.map Worker.email).Nodup) →
    ∀ w ∈ l, l.find? (fun w' => w'.email == w.email) = some w := by
  intro l
  induction l with
  | nil => intro _ w hw; simp at hw
  | cons x xs ih =>
    intro hnd w hw
    simp only [List.map_cons, List.nodup_cons] at hnd
    rcases List.mem_cons.mp hw with rfl | hmem
    · rw [List.find?_cons_of_pos _ (by simp)]
    · have hne : x.email ≠ w.email := by
        intro he
        exact hnd.1 (he ▸ List.mem_map_of_mem Worker.email hmem)
      rw [List.find?_cons_of_neg _ (by simp [hne])]
      exact ih hnd.2 w hmem

lemma find_rev_email {workers : List Worker} (hnd : (workers.map Worker.email).Nodup)
    {w : Worker} (hw : w ∈ workers) :
    workers.reverse.find? (fun w' => w'.email == w.email) = some w := by
  have hnd2 : (workers.reverse.map Worker.email).Nodup := by
    rw [List.map_reverse]
    exact List.nodup_reverse.mpr hnd
  exact find_email_of_nodup workers.reverse hnd2 w (List.mem_reverse.mpr hw)

lemma sortByKey_map_nodup {α : Type} [LinearOrder α] (key : Worker → α)
    (l : List Worker) (hnd : (l.map Worker.email).Nodup) :
    ((sortByKey key l).map Worker.email).Nodup :=
  (((List.perm_insertionSort (fun a b => key a ≤ key b) l).map Worker.email).nodup_iff).mpr hnd

/-! ## Digit-string round-trip lemmas -/

lemma digitsVal_append_singleton (l : List Char) (c : Char) :
    digitsVal (l ++ [c]) = 10 * digitsVal l + (c.toNat - 48) := by
  simp [digitsVal, List.foldl_append, Nat.mul_comm]

lemma digitChar_isDigit {d : Nat} (h : d < 10) : (digitChar d).isDigit = true := by
  interval_cases d <;> decide

lemma digitChar_toNat {d : Nat} (h : d < 10) : (digitChar d).toNat = 48 + d := by
  interval_cases d <;> decide

lemma digitChar_ne_colon {d : Nat} (h : d < 10) : digitChar d ≠ ':' := by
  interval_cases d <;> decide

lemma digitChar_ne_minus {d : Nat} (h : d < 10) : digitChar d ≠ '-' := by
  interval_cases d <;> decide

lemma digitChar_ne_plus {d : Nat} (h : d < 10) : digitChar d ≠ '+' := by
  interval_cases d <;> decide

lemma digitChar_not_ws {d : Nat} (h : d < 10) : (digitChar d).isWhitespace = false := by
  interval_cases d <;> decide

lemma natDigitsAux_spec : ∀ (fuel n : Nat), n ≤ fuel →
    natDigitsAux fuel n ≠ [] ∧
    (∀ c ∈ natDigitsAux fuel n, ∃ d, d < 10 ∧ c = digitChar d) ∧
    digitsVal (natDigitsAux fuel n) = n
  | 0, n, hn => by
    interval_cases n
    refine ⟨by simp [natDigitsAux], ?_, by decide⟩
    intro c hc
    simp [natDigitsAux] at hc
    exact ⟨0, by omega, hc⟩
  | fuel + 1, n, hn => by
    by_cases h10 : n < 10
    · refine ⟨by simp [natDigitsAux, h10], ?_, ?_⟩
      · intro c hc
        simp [natDigitsAux, h10] at hc
        exact ⟨n, h10, hc⟩
      · simp [natDigitsAux, h10, digitsVal, digitChar_toNat h10]
    · have hrec := natDigitsAux_spec fuel (n / 10) (by omega)
      have hle : ¬ n < 10 := h10
      refine ⟨by simp [natDigitsAux, hle], ?_, ?_⟩
      · intro c hc
        simp only [natDigitsAux, if_neg hle, List.mem_append, List.mem_singleton] at hc
        rcases hc with hc | hc
        · exact hrec.2.1 c hc
        · exact ⟨n % 10, by omega, hc⟩
      · simp only [natDigitsAux, if_neg hle]
        rw [digitsVal_append_singleton, hrec.2.2, digitChar_toNat (by omega : n % 10 < 10)]
        omega

lemma natDigits_spec (n : Nat) :
    natDigits n ≠ [] ∧
    (∀ c ∈ natDigits n, ∃ d, d < 10 ∧ c = digitChar d) ∧
    digitsVal (natDigits n) = n :=
  natDigitsAux_spec n n le_rfl

lemma stripChars_eq_self {l : List Char} (h : ∀ c ∈ l, c.isWhitespace = false) :
    stripChars l = l := by
  have hdrop : ∀ (m : List Char), (∀ c ∈ m, c.isWhitespace = false) →
      m.dropWhile Char.isWhitespace = m := by
    intro m hm
    cases m with
    | nil => rfl
    | cons x xs => simp [List.dropWhile, hm x (by simp)]
  unfold stripChars
  rw [hdrop l h, hdrop l.reverse (fun c hc => h c (List.mem_reverse.mp hc)), List.reverse_reverse]

lemma digitsVal_cons_zero (l : List Char) : digitsVal ('0' :: l) = digitsVal l := by
  simp [digitsVal]

lemma pad2_toList_cases (i : Int) :
    ∀ c ∈ (pad2 i).toList, c = '0' ∨ c = '-' ∨ c ∈ natDigits i.natAbs := by
  intro c hc
  simp only [pad2, intRepr, intDigits] at hc
  by_cases hneg : i < 0
  · simp only [hneg, reduceIte] at hc
    split at hc
    · simp only [String.toList, String.data_append] at hc
      rcases List.mem_append.mp hc with hc0 | hc1
      · left; simpa using hc0
      · rcases (show c = '-' ∨ c ∈ natDigits i.natAbs by simpa using hc1) with h | h
        · exact Or.inr (Or.inl h)
        · exact Or.inr (Or.inr h)
    · rcases (show c = '-' ∨ c ∈ natDigits i.natAbs by simpa using hc) with h | h
      · exact Or.inr (Or.inl h)
      · exact Or.inr (Or.inr h)
  · simp only [hneg, reduceIte] at hc
    split at hc
    · simp only [String.toList, String.data_append] at hc
      rcases List.mem_append.mp hc with hc0 | hc1
      · left; simpa using hc0
      · exact Or.inr (Or.inr (by simpa using hc1))
    · exact Or.inr (Or.inr (by simpa using hc))

/-- Characters of `pad2 i` are decimal digits, except a possible `'-'`;
in particular no colon and no whitespace. -/
lemma pad2_chars (i : Int) :
    ∀ c ∈ (pad2 i).toList, (c.isDigit = true ∨ c = '-') ∧ c ≠ ':' ∧
      c.isWhitespace = false := by
  intro c hc
  rcases pad2_toList_cases i c hc with rfl | rfl | hcd
  · exact ⟨Or.inl (by decide), by decide, by decide⟩
  · exact ⟨Or.inr rfl, by decide, by decide⟩
  · obtain ⟨d, hd, rfl⟩ := (natDigits_spec i.natAbs).2.1 c hcd
    exact ⟨Or.inl (digitChar_isDigit hd), digitChar_ne_colon hd, digitChar_not_ws hd⟩

lemma parseIntQ_pad2 (i : Int) : parseIntQ (pad2 i) = some i := by
  have hstrip : stripChars (pad2 i).toList = (pad2 i).toList :=
    stripChars_eq_self (fun c hc => (pad2_chars i c hc).2.2)
  have hdigits := natDigits_spec i.natAbs
  by_cases hneg : i < 0
  · have hlist : (pad2 i).toList = '-' :: natDigits i.natAbs := by
      have hlen : 2 ≤ ('-' :: natDigits i.natAbs).length := by
        cases hni : natDigits i.natAbs with
        | nil => exact absurd hni hdigits.1
        | cons a l => simp
      simp only [pad2, intRepr, intDigits, if_pos hneg]
      rw [if_neg (by
        change ¬('-' :: natDigits i.natAbs).length < 2
        omega)]
      rfl
    have hAllDig : (natDigits i.natAbs).all Char.isDigit = true := by
      rw [List.all_eq_true]
      intro c hc
      obtain ⟨d, hd, rfl⟩ := hdigits.2.1 c hc
      exact digitChar_isDigit hd
    unfold parseIntQ
    rw [hstrip, hlist]
    simp only [reduceIte]
    rw [if_pos ⟨hdigits.1, hAllDig⟩]
    congr 1
    rw [hdigits.2.2]
    omega
  · have hall : ∀ c ∈ (pad2 i).toList, c.isDigit = true := by
      intro c hc
      simp only [pad2, intRepr, intDigits, if_neg hneg] at hc
      split at hc
      · simp only [String.toList, String.data_append] at hc
        rcases List.mem_append.mp hc with hc0 | hc1
        · have hc0' : c = '0' := by simpa using hc0
          subst hc0'; decide
        · obtain ⟨d, hd, rfl⟩ := hdigits.2.1 c (by simpa using hc1)
          exact digitChar_isDigit hd
      · obtain ⟨d, hd, rfl⟩ := hdigits.2.1 c (by simpa using hc)
        exact digitChar_isDigit hd
    have hvalList : digitsVal (pad2 i).toList = i.natAbs := by
      simp only [pad2, intRepr, intDigits, if_neg hneg]
      split
      · simp only [String.toList, String.data_append]
        show digitsVal ('0' :: natDigits i.natAbs) = _
        rw [digitsVal_cons_zero, hdigits.2.2]
      · exact hdigits.2.2
    have hne : (pad2 i).toList ≠ [] := by
      simp only [pad2, intRepr, intDigits, if_neg hneg]
      split
      · simp [String.toList, String.data_append]
      · exact hdigits.1
    unfold parseIntQ
    rw [hstrip]
    cases hl : (pad2 i).toList with
    | nil => exact absurd hl hne
    | cons c rest =>
      have hc := hall c (by rw [hl]; simp)
      have hcm : c ≠ '-' := by rintro rfl; simp at hc
      have hcp : c ≠ '+' := by rintro rfl; simp at hc
      simp only [if_neg hcm, if_neg hcp]
      rw [if_pos]
      · have hv : digitsVal (c :: rest) = i.natAbs := by rw [← hl, hvalList]
        rw [hv]
        congr 1
        omega
      · rw [List.all_eq_true]
        intro x hx
        exact hall x (by rw [hl]; exact hx)

lemma splitChAux_no_sep (sep : Char) : ∀ (l acc : List Char), sep ∉ l →
    splitChAux sep l acc = [⟨acc.reverse ++ l⟩]
  | [], acc, _ => by simp [splitChAux]
  | x :: xs, acc, h => by
    have hx : x ≠ sep := fun hh => h (hh ▸ List.mem_cons_self x xs)
    simp only [splitChAux, if_neg hx]
    rw [splitChAux_no_sep sep xs (x :: acc) (fun hh => h (List.mem_cons_of_mem x hh))]
    simp

lemma splitChAux_sep_head (sep : Char) : ∀ (l1 l2 acc : List Char), sep ∉ l1 →
    splitChAux sep (l1 ++ sep :: l2) acc = ⟨acc.reverse ++ l1⟩ :: splitChAux sep l2 []
  | [], l2, acc, _ => by simp [splitChAux]
  | x :: xs, l2, acc, h => by
    have hx : x ≠ sep := fun hh => h (hh ▸ List.mem_cons_self x xs)
    simp only [List.cons_append, splitChAux, if_neg hx, List.append_eq]
    rw [splitChAux_sep_head sep xs l2 (x :: acc) (fun hh => h (List.mem_cons_of_mem x hh))]
    simp

lemma string_mk_toList (s : String) : (⟨s.toList⟩ : String) = s := by
  cases s; rfl

lemma pySplit_pads (h m : Int) :
    pySplit (pad2 h ++ ":" ++ pad2 m) ':' = [pad2 h, pad2 m] := by
  have hl : (pad2 h ++ ":" ++ pad2 m).toList = (pad2 h).toList ++ ':' :: (pad2 m).toList := by
    show ((pad2 h ++ ":" ++ pad2 m)).data = (pad2 h).data ++ ':' :: (pad2 m).data
    rw [String.data_append, String.data_append,
      show (":" : String).data = [':'] from by decide]
    simp
  have h1 : ':' ∉ (pad2 h).toList := fun hc => (pad2_chars h _ hc).2.1 rfl
  have h2 : ':' ∉ (pad2 m).toList := fun hc => (pad2_chars m _ hc).2.1 rfl
  unfold pySplit
  rw [hl, splitChAux_sep_head ':' _ _ [] h1, splitChAux_no_sep ':' _ [] h2]
  simp [string_mk_toList]

lemma time_to_hour_pads (h m : Int) :
    time_to_hour (pad2 h ++ ":" ++ pad2 m) = (h : ℚ) + (m : ℚ) / 60 := by
  unfold time_to_hour
  simp [pySplit_pads h m, parseIntQ_pad2]

lemma pyRound_intCast (i : Int) : pyRound (i : ℚ) = i := by
  unfold pyRound
  rw [Int.floor_intCast]
  norm_num

/-- What `time_to_hour` recovers from a `hour_to_time_str` output: the
truncated hour plus the rounded minute over 60. -/
lemma time_to_hour_fmt (x : ℚ) :
    time_to_hour (hour_to_time_str x) =
      (pyTrunc x : ℚ) + (pyRound ((x - pyTrunc x) * 60) : ℚ) / 60 :=
  time_to_hour_pads (pyTrunc x) (pyRound ((x - pyTrunc x) * 60))

/-- `hour_to_time_str` round-trips exactly on whole minutes (any integer
number of them, also beyond 24:00 and negative). -/
lemma roundtrip_sixtieths (k : Int) :
    time_to_hour (hour_to_time_str ((k : ℚ) / 60)) = (k : ℚ) / 60 := by
  rw [time_to_hour_fmt]
  have harg : (((k : ℚ) / 60) - pyTrunc ((k : ℚ) / 60)) * 60 =
      ((k - 60 * pyTrunc ((k : ℚ) / 60) : ℤ) : ℚ) := by
    push_cast
    ring
  rw [harg, pyRound_intCast]
  push_cast
  ring

/-- C9: `time_to_hour` and `hour_to_time_str` are exact inverses on `[0,24)`:
formatting a parsed two-digit `"HH:MM"` (hour < 24, minute < 60) returns the
string unchanged; parsing a formatted whole-minute decimal hour returns the
value unchanged; and for whole-minute values ≥ 24 the formatter still
produces `"HH:MM"` with `HH ≥ 24`. -/
theorem C9_time_string_inverses :
    (∀ H M : Nat, H < 24 → M < 60 →
      hour_to_time_str (time_to_hour (pad2 (H : Int) ++ ":" ++ pad2 (M : Int))) =
        pad2 (H : Int) ++ ":" ++ pad2 (M : Int)) ∧
    (∀ n : Nat, n < 1440 →
      time_to_hour (hour_to_time_str ((n : ℚ) / 60)) = (n : ℚ) / 60) ∧
    (∀ n : Nat, 1440 ≤ n → ∃ H M : Int, 24 ≤ H ∧ 0 ≤ M ∧ M < 60 ∧
      hour_to_time_str ((n : ℚ) / 60) = pad2 H ++ ":" ++ pad2 M) := by
  have hfloor : ∀ n : Nat, pyTrunc ((n : ℚ) / 60) = ((n / 60 : ℕ) : Int) := by
    intro n
    unfold pyTrunc
    rw [if_neg (not_lt.mpr (by positivity))]
    have h1 : ((n : ℚ) / 60) = ((n : ℤ) : ℚ) / ((60 : ℕ) : ℚ) := by push_cast; ring
    rw [h1, Rat.floor_intCast_div_natCast]
    omega
  have hminute : ∀ n : Nat,
      pyRound (((n : ℚ) / 60 - (pyTrunc ((n : ℚ) / 60) : ℚ)) * 60) = ((n % 60 : ℕ) : Int) := by
    intro n
    rw [hfloor n]
    have key : (60 : ℚ) * ((n / 60 : ℕ) : ℚ) + ((n % 60 : ℕ) : ℚ) = (n : ℚ) := by
      exact_mod_cast congrArg (fun k : ℕ => (k : ℚ)) (Nat.div_add_mod n 60)
    have harg : ((n : ℚ) / 60 - (((n / 60 : ℕ) : ℤ) : ℚ)) * 60 = (((n % 60 : ℕ) : ℤ) : ℚ) := by
      rw [Int.cast_natCast, Int.cast_natCast]
      field_simp
      linarith [key]
    rw [harg, pyRound_intCast]
  refine ⟨?_, ?_, ?_⟩
  · intro H M hH hM
    rw [time_to_hour_pads]
    have hval : ((H : ℤ) : ℚ) + ((M : ℤ) : ℚ) / 60 = ((H * 60 + M : ℕ) : ℚ) / 60 := by
      push_cast
      ring
    rw [hval]
    show pad2 (pyTrunc _) ++ ":" ++ pad2 (pyRound _) = _
    rw [hminute, hfloor]
    have e1 : (H * 60 + M) / 60 = H := by omega
    have e2 : (H * 60 + M) % 60 = M := by omega
    rw [e1, e2]
  · intro n _
    have h := roundtrip_sixtieths (n : ℤ)
    rw [show (((n : ℤ)) : ℚ) = (n : ℚ) from by push_cast; ring] at h
    exact h
  · intro n hn
    have hH : (24 : ℤ) ≤ ((n / 60 : ℕ) : ℤ) := by exact_mod_cast (by omega : 24 ≤ n / 60)
    have hM0 : (0 : ℤ) ≤ ((n % 60 : ℕ) : ℤ) := Int.natCast_nonneg _
    have hM : ((n % 60 : ℕ) : ℤ) < 60 := by exact_mod_cast (by omega : n % 60 < 60)
    refine ⟨((n / 60 : ℕ) : ℤ), ((n % 60 : ℕ) : ℤ), hH, hM0, hM, ?_⟩
    show pad2 (pyTrunc _) ++ ":" ++ pad2 (pyRound _) = _
    rw [hminute, hfloor]

/-- Witness for C9 at `"09:30"` (= 9.5h), 570 minutes (= 9.5h) and 1560
minutes (= 26.0h ≥ 24). -/
theorem C9_time_string_inverses_witness :
    ((9 : Nat) < 24 ∧ (30 : Nat) < 60 ∧
      hour_to_time_str (time_to_hour (pad2 ((9 : Nat) : Int) ++ ":" ++
        pad2 ((30 : Nat) : Int))) =
        pad2 ((9 : Nat) : Int) ++ ":" ++ pad2 ((30 : Nat) : Int)) ∧
    ((570 : Nat) < 1440 ∧
      time_to_hour (hour_to_time_str (((570 : Nat) : ℚ) / 60)) = ((570 : Nat) : ℚ) / 60) ∧
    (1440 ≤ (1560 : Nat) ∧ ∃ H M : Int, 24 ≤ H ∧ 0 ≤ M ∧ M < 60 ∧
      hour_to_time_str (((1560 : Nat) : ℚ) / 60) = pad2 H ++ ":" ++ pad2 M) :=
  ⟨⟨by norm_num, by norm_num,
      C9_time_string_inverses.1 9 30 (by norm_num) (by norm_num)⟩,
   ⟨by norm_num, C9_time_string_inverses.2.1 570 (by norm_num)⟩,
   ⟨by norm_num, C9_time_string_inverses.2.2 1560 (by norm_num)⟩⟩

/-! ## Dictionary insert/lookup lemmas and the alt_sols fold -/

lemma find_append_of_none {α : Type} (p : α → Bool) :
    ∀ (l1 l2 : List α), (∀ x ∈ l1, p x = false) → (l1 ++ l2).find? p = l2.find? p
  | [], _, _ => rfl
  | x :: xs, l2, h => by
    rw [List.cons_append,
      List.find?_cons_of_neg _ (by simp [h x (List.mem_cons_self x xs)])]
    exact find_append_of_none p xs l2 (fun y hy => h y (List.mem_cons_of_mem x hy))

lemma find_map_overwrite {α : Type} (k : String) (v : α) :
    ∀ (d : List (String × α)), d.any (fun p => p.1 == k) = true →
    (d.map (fun p => if p.1 == k then (p.1, v) else p)).find? (fun p => p.1 == k) =
      some (k, v)
  | [], h => by simp at h
  | x :: xs, h => by
    by_cases hx : (x.1 == k) = true
    · simp only [List.map_cons, if_pos hx]
      rw [List.find?_cons_of_pos _ (by simpa using hx)]
      have hx1 : x.1 = k := by simpa using hx
      rw [hx1]
    · simp only [List.map_cons, if_neg hx]
      rw [List.find?_cons_of_neg _ (by simpa using hx)]
      apply find_map_overwrite k v xs
      simp only [List.any_cons] at h
      rcases (Bool.or_eq_true _ _).mp h with h' | h'
      · exact absurd h' hx
      · exact h'

lemma find_map_preserve {α : Type} (k' k : String) (v : α) (hne : k' ≠ k) :
    ∀ (d : List (String × α)),
    (d.map (fun p => if p.1 == k' then (p.1, v) else p)).find? (fun p => p.1 == k) =
      d.find? (fun p => p.1 == k)
  | [] => rfl
  | x :: xs => by
    by_cases hxk : (x.1 == k) = true
    · have hx1 : x.1 = k := by simpa using hxk
      have hxk' : ¬((x.1 == k') = true) := by
        rw [hx1]
        simpa using fun h => hne h.symm
      simp only [List.map_cons, if_neg hxk']
      rw [List.find?_cons_of_pos _ (by simpa using hxk),
        List.find?_cons_of_pos _ (by simpa using hxk)]
    · by_cases hxk' : (x.1 == k') = true
      · simp only [List.map_cons, if_pos hxk']
        rw [List.find?_cons_of_neg _ (by simpa using hxk),
          List.find?_cons_of_neg _ (by simpa using hxk)]
        exact find_map_preserve k' k v hne xs
      · simp only [List.map_cons, if_neg hxk']
        rw [List.find?_cons_of_neg _ (by simpa using hxk),
          List.find?_cons_of_neg _ (by simpa using hxk)]
        exact find_map_preserve k' k v hne xs

lemma dlookup_dinsert_self {α : Type} (d : List (String × α)) (k : String) (v : α) :
    dlookup (dinsert d k v) k = some v := by
  unfold dinsert dlookup
  split
  · rename_i hany
    rw [find_map_overwrite k v d hany]
    rfl
  · rename_i hany
    have hall : ∀ x ∈ d, ((fun (p : String × α) => p.1 == k) x) = false := by
      intro x hx
      by_cases hpx : (x.1 == k) = true
      · exact absurd (List.any_eq_true.mpr ⟨x, hx, hpx⟩) hany
      · simpa using hpx
    rw [find_append_of_none _ d [(k, v)] hall,
      List.find?_cons_of_pos _ (by simp)]
    rfl

lemma dlookup_dinsert_ne {α : Type} (d : List (String × α)) (k' k : String) (v : α)
    (hne : k' ≠ k) : dlookup (dinsert d k' v) k = dlookup d k := by
  unfold dinsert dlookup
  split
  · rw [find_map_preserve k' k v hne d]
  · rw [List.find?_append]
    have h1 : List.find? (fun (p : String × α) => p.1 == k) [(k', v)] = none := by
      rw [List.find?_cons_of_neg _ (by simpa using hne)]
      rfl
    rw [h1, Option.or_none]

lemma foldl_altsols_none (key : Unfilled → String) (gsols : Unfilled → List Worker) :
    ∀ (l : List Unfilled) (d : List (String × List String)) (k : String),
    (∀ u ∈ l, key u = k → gsols u = []) →
    dlookup (l.foldl (fun d us => if gsols us = [] then d
      else dinsert d (key us) ((gsols us).map wname)) d) k = dlookup d k
  | [], _, _, _ => rfl
  | u :: rest, d, k, h => by
    simp only [List.foldl_cons]
    by_cases hg : gsols u = []
    · rw [if_pos hg]
      exact foldl_altsols_none key gsols rest d k
        (fun x hx => h x (List.mem_cons_of_mem u hx))
    · rw [if_neg hg]
      have hku : key u ≠ k := fun he => hg (h u (List.mem_cons_self u rest) he)
      rw [foldl_altsols_none key gsols rest _ k
        (fun x hx => h x (List.mem_cons_of_mem u hx))]
      exact dlookup_dinsert_ne _ _ _ _ hku

lemma foldl_altsols_some (key : Unfilled → String) (gsols : Unfilled → List Worker) :
    ∀ (l : List Unfilled) (d : List (String × List String)) (k : String) (v0 : List Worker),
    v0 ≠ [] →
    (∀ u ∈ l, key u = k → gsols u = v0) →
    (dlookup d k = some (v0.map wname) ∨ ∃ u ∈ l, key u = k) →
    dlookup (l.foldl (fun d us => if gsols us = [] then d
      else dinsert d (key us) ((gsols us).map wname)) d) k = some (v0.map wname)
  | [], d, k, v0, _, _, hd => by
    rcases hd with hd | ⟨u, hu, _⟩
    · exact hd
    · simp at hu
  | u :: rest, d, k, v0, hv0, h, hd => by
    simp only [List.foldl_cons]
    by_cases hku : key u = k
    · have hgu : gsols u = v0 := h u (List.mem_cons_self u rest) hku
      rw [if_neg (show gsols u ≠ [] by rw [hgu]; exact hv0)]
      refine foldl_altsols_some key gsols rest _ k v0 hv0
        (fun x hx => h x (List.mem_cons_of_mem u hx)) (Or.inl ?_)
      rw [hgu, hku]
      exact dlookup_dinsert_self d k (v0.map wname)
    · have hnext : dlookup d k = some (v0.map wname) ∨ ∃ x ∈ rest, key x = k := by
        rcases hd with hd | ⟨x, hx, hkx⟩
        · exact Or.inl hd
        · rcases List.mem_cons.mp hx with rfl | hx'
          · exact absurd hkx hku
          · exact Or.inr ⟨x, hx', hkx⟩
      by_cases hg : gsols u = []
      · rw [if_pos hg]
        exact foldl_altsols_some key gsols rest d k v0 hv0
          (fun x hx => h x (List.mem_cons_of_mem u hx)) hnext
      · rw [if_neg hg]
        refine foldl_altsols_some key gsols rest _ k v0 hv0
          (fun x hx => h x (List.mem_cons_of_mem u hx)) ?_
        rcases hnext with hd' | hex
        · exact Or.inl (by rw [dlookup_dinsert_ne _ _ _ _ hku]; exact hd')
        · exact Or.inr hex

lemma alt_sols_lookup (workers : List Worker) (capX : ℚ) (ahF : String → ℚ)
    (U : List Unfilled)
    (hkey : ∀ u1 ∈ U, ∀ u2 ∈ U,
      u1.day ++ " " ++ u1.start ++ "-" ++ u1.stop =
        u2.day ++ " " ++ u2.start ++ "-" ++ u2.stop →
      u1.day = u2.day ∧ u1.start_hour = u2.start_hour ∧ u1.end_hour = u2.end_hour) :
    ∀ us ∈ U,
      dlookup (U.foldl (fun d us =>
          if find_alternative_workers workers us.day us.start_hour us.end_hour ahF capX []
              = [] then d
          else dinsert d (us.day ++ " " ++ us.start ++ "-" ++ us.stop)
            ((find_alternative_workers workers us.day us.start_hour us.end_hour ahF capX
              []).map wname)) [])
        (us.day ++ " " ++ us.start ++ "-" ++ us.stop) =
      if find_alternative_workers workers us.day us.start_hour us.end_hour ahF capX [] = []
      then none
      else some ((find_alternative_workers workers us.day us.start_hour us.end_hour ahF capX
        []).map wname) := by
  intro us hus
  by_cases hsol :
      find_alternative_workers workers us.day us.start_hour us.end_hour ahF capX [] = []
  · have hall : ∀ u ∈ U, u.day ++ " " ++ u.start ++ "-" ++ u.stop =
        us.day ++ " " ++ us.start ++ "-" ++ us.stop →
        find_alternative_workers workers u.day u.start_hour u.end_hour ahF capX [] = [] := by
      intro u hu hk
      obtain ⟨hd, hs, he⟩ := hkey u hu us hus hk
      rw [hd, hs, he]
      exact hsol
    rw [if_pos hsol]
    exact (foldl_altsols_none (fun u => u.day ++ " " ++ u.start ++ "-" ++ u.stop)
      (fun u => find_alternative_workers workers u.day u.start_hour u.end_hour ahF capX [])
      U [] _ hall).trans rfl
  · have hall : ∀ u ∈ U, u.day ++ " " ++ u.start ++ "-" ++ u.stop =
        us.day ++ " " ++ us.start ++ "-" ++ us.stop →
        find_alternative_workers workers u.day u.start_hour u.end_hour ahF capX [] =
          find_alternative_workers workers us.day us.start_hour us.end_hour ahF capX [] := by
      intro u hu hk
      obtain ⟨hd, hs, he⟩ := hkey u hu us hus hk
      rw [hd, hs, he]
    rw [if_neg hsol]
    exact foldl_altsols_some (fun u => u.day ++ " " ++ u.start ++ "-" ++ u.stop)
      (fun u => find_alternative_workers workers u.day u.start_hour u.end_hour ahF capX [])
      U [] _ _ hsol hall (Or.inr ⟨us, hus, rfl⟩)

/-! ## Matching hours vs. windows, and work-study issue coverage -/

lemma foldl_rel {α β γ : Type} (R : β → γ → Prop) (f : β → α → β) (g : γ → α → γ)
    (l : List α) (hstep : ∀ b c a, R b c → R (f b a) (g c a)) :
    ∀ b c, R b c → R (l.foldl f b) (l.foldl g c) := by
  induction l with
  | nil => exact fun b c h => h
  | cons x xs ih => exact fun b c h => ih _ _ (hstep b c x h)

lemma totalWin_append (l : List (String × ℚ × ℚ)) (x : String × ℚ × ℚ) :
    totalWin (l ++ [x]) = totalWin l + (x.2.2 - x.2.1) := by
  simp [totalWin]

lemma totalWin_windowsFor (hop : List (String × List OpInterval)) (w : Worker) :
    totalWin (windowsFor hop w) = matchingHours hop w := by
  unfold windowsFor matchingHours
  refine foldl_rel (fun (b : List (String × ℚ × ℚ)) (c : ℚ) => totalWin b = c) _ _ hop
    ?_ [] 0 (by simp [totalWin])
  intro b c p hbc
  dsimp only
  refine foldl_rel (fun (b : List (String × ℚ × ℚ)) (c : ℚ) => totalWin b = c) _ _ p.2
    ?_ b c hbc
  intro b2 c2 op hbc2
  dsimp only
  refine foldl_rel (fun (b : List (String × ℚ × ℚ)) (c : ℚ) => totalWin b = c) _ _
    (availGet w p.1) ?_ b2 c2 hbc2
  intro b3 c3 a hbc3
  dsimp only
  split_ifs <;> simp [totalWin_append, hbc3]

lemma splitChAux_head_prefix (sep : Char) :
    ∀ (l acc : List Char), ∃ t r, l = t ++ r ∧
      ((splitChAux sep l acc).headD "").toList = acc.reverse ++ t
  | [], acc => by
    refine ⟨[], [], by simp, ?_⟩
    show ((⟨acc.reverse⟩ : String)).toList = acc.reverse ++ []
    simp [String.toList]
  | x :: xs, acc => by
    by_cases hx : x = sep
    · refine ⟨[], x :: xs, by simp, ?_⟩
      rw [splitChAux, if_pos hx]
      show ((⟨acc.reverse⟩ : String)).toList = acc.reverse ++ []
      simp [String.toList]
    · obtain ⟨t, r, hl, hh⟩ := splitChAux_head_prefix sep xs (x :: acc)
      refine ⟨x :: t, r, by simp [hl], ?_⟩
      rw [splitChAux, if_neg hx, hh]
      simp

lemma string_prefix_append3 (a b c d : String) :
    a.toList <+: (((a ++ b) ++ c) ++ d).toList := by
  refine ⟨b.toList ++ c.toList ++ d.toList, ?_⟩
  show a.data ++ (b.data ++ c.data ++ d.data) = ((((a ++ b) ++ c) ++ d)).data
  simp [String.data_append]

lemma ws_issue_exists (initial : List String) (workers : List Worker)
    (p : Worker → Bool) (g : Worker → String) {w : Worker} (hw : w ∈ workers)
    (hp : p w = true)
    (hg : (wname w).toList <+: (g w).toList) :
    ∃ issue ∈ initial ++ ((workers.filter (fun x => p x &&
        !((initial.map (fun issue => (pySplit issue ':').headD "")).contains
          (wname x)))).map g),
      (wname w).toList <+: issue.toList := by
  by_cases hc :
      ((initial.map (fun issue => (pySplit issue ':').headD "")).contains (wname w)) = true
  · have hmem : wname w ∈ initial.map (fun issue => (pySplit issue ':').headD "") := by
      simpa using hc
    obtain ⟨issue, hissue, hhead⟩ := List.mem_map.mp hmem
    refine ⟨issue, List.mem_append_left _ hissue, ?_⟩
    obtain ⟨t, r, hl, hh⟩ := splitChAux_head_prefix ':' issue.toList []
    have hhead2 : (splitChAux ':' issue.toList []).headD "" = wname w := hhead
    rw [hhead2] at hh
    simp only [List.reverse_nil, List.nil_append] at hh
    exact ⟨r, by rw [hh]; exact hl.symm⟩
  · have hc2 : ((initial.map (fun issue => (pySplit issue ':').headD "")).contains
        (wname w)) = false := by
      revert hc
      cases (initial.map (fun issue => (pySplit issue ':').headD "")).contains (wname w) <;>
        simp
    refine ⟨g w, List.mem_append_right _
      (List.mem_map_of_mem g (List.mem_filter.mpr ⟨hw, ?_⟩)), hg⟩
    rw [hp, hc2]
    rfl

/-! ## Whole-minute arithmetic and schedule-append lemmas -/

lemma isQ60_intCast (k : ℤ) : isQ60 (k : ℚ) := ⟨k * 60, by push_cast; ring⟩

lemma isQ60_add {a b : ℚ} (ha : isQ60 a) (hb : isQ60 b) : isQ60 (a + b) := by
  obtain ⟨k, rfl⟩ := ha
  obtain ⟨m, rfl⟩ := hb
  exact ⟨k + m, by push_cast; ring⟩

lemma isQ60_sub {a b : ℚ} (ha : isQ60 a) (hb : isQ60 b) : isQ60 (a - b) := by
  obtain ⟨k, rfl⟩ := ha
  obtain ⟨m, rfl⟩ := hb
  exact ⟨k - m, by push_cast; ring⟩

lemma isQ60_max {a b : ℚ} (ha : isQ60 a) (hb : isQ60 b) : isQ60 (max a b) := by
  rcases max_cases a b with ⟨h, _⟩ | ⟨h, _⟩ <;> rw [h] <;> assumption

lemma isQ60_min {a b : ℚ} (ha : isQ60 a) (hb : isQ60 b) : isQ60 (min a b) := by
  rcases min_cases a b with ⟨h, _⟩ | ⟨h, _⟩ <;> rw [h] <;> assumption

lemma isQ60_of_q60 {q : ℚ} (h : q60 q = true) : isQ60 q := by
  have hden : (q * 60).den = 1 := by simpa [q60] using h
  have hnum : (((q * 60).num : ℚ)) = q * 60 := (Rat.den_eq_one_iff _).mp hden
  exact ⟨(q * 60).num, by rw [hnum]; ring⟩

lemma isQ60_roundtrip {q : ℚ} (h : isQ60 q) : time_to_hour (hour_to_time_str q) = q := by
  obtain ⟨k, rfl⟩ := h
  exact roundtrip_sixtieths k

lemma disjQ_symm {a b : ℚ × ℚ} (h : disjQ a b) : disjQ b a := by
  unfold disjQ at h ⊢
  rw [max_comm, min_comm]
  exact h

lemma disjQ_of_subset {x a b : ℚ × ℚ} (h1 : a.1 ≤ x.1) (h2 : x.2 ≤ a.2)
    (hd : disjQ a b) : disjQ x b := fun hlt =>
  hd (lt_of_le_of_lt (max_le_max h1 le_rfl) (lt_of_lt_of_le hlt (min_le_min h2 le_rfl)))

lemma disjQ_of_subset_right {x a b : ℚ × ℚ} (h1 : b.1 ≤ x.1) (h2 : x.2 ≤ b.2)
    (hd : disjQ a b) : disjQ a x :=
  disjQ_symm (disjQ_of_subset h1 h2 (disjQ_symm hd))

lemma dayShifts_appendShift_same (s : Sched) (day : String) (sh : Shift) :
    dayShifts (appendShift s day sh) day = dayShifts s day ++ [sh] := by
  unfold appendShift dayShifts hasDay
  split
  · rename_i hany
    rw [List.find?_map]
    have hcomp : ((fun (p : String × List Shift) => p.1 == day) ∘
        (fun p => if p.1 == day then (p.1, p.2 ++ [sh]) else p)) =
        (fun (p : String × List Shift) => p.1 == day) := by
      funext p
      by_cases hp : (p.1 == day) = true <;> simp [Function.comp, hp]
    rw [hcomp]
    cases hq : s.find? (fun p => p.1 == day) with
    | none =>
      rw [List.find?_eq_none] at hq
      obtain ⟨p, hp, hppred⟩ := List.any_eq_true.mp hany
      exact absurd hppred (hq p hp)
    | some q =>
      have hqpred := List.find?_some hq
      simp only [Option.map_some', Option.getD_some, if_pos hqpred]
  · rename_i hany
    have hnone : s.find? (fun p => p.1 == day) = none := by
      rw [List.find?_eq_none]
      intro x hx hpx
      exact hany (List.any_eq_true.mpr ⟨x, hx, hpx⟩)
    rw [List.find?_append, hnone, Option.none_or,
      List.find?_cons_of_pos _ (by simp)]
    rfl

lemma dayShifts_appendShift_other (s : Sched) (day d' : String) (sh : Shift)
    (hne : d' ≠ day) : dayShifts (appendShift s day sh) d' = dayShifts s d' := by
  unfold appendShift dayShifts hasDay
  split
  · rw [List.find?_map]
    have hcomp : ((fun (p : String × List Shift) => p.1 == d') ∘
        (fun p => if p.1 == day then (p.1, p.2 ++ [sh]) else p)) =
        (fun (p : String × List Shift) => p.1 == d') := by
      funext p
      by_cases hp : (p.1 == day) = true <;> simp [Function.comp, hp]
    rw [hcomp]
    cases hfind : s.find? (fun p => p.1 == d') with
    | none => rfl
    | some p =>
      have hp := List.find?_some hfind
      have hp1 : p.1 = d' := by simpa using hp
      simp only [Option.map_some', Option.getD_some]
      rw [if_neg (show ¬((p.1 == day) = true) by simp [hp1]; exact hne)]
  · rw [List.find?_append]
    have h1 : List.find? (fun (p : String × List Shift) => p.1 == d') [(day, [sh])] =
        none := by
      rw [List.find?_cons_of_neg _ (by simpa using fun h => hne h.symm)]
      rfl
    rw [h1, Option.or_none]

lemma dayShifts_ensureDay (s : Sched) (day d' : String) :
    dayShifts (ensureDay s day) d' = dayShifts s d' := by
  unfold ensureDay hasDay
  split
  · rfl
  · rename_i hany
    unfold dayShifts
    rw [List.find?_append]
    by_cases hd : d' = day
    · subst hd
      have hnone : s.find? (fun p => p.1 == d') = none := by
        rw [List.find?_eq_none]
        intro x hx hpx
        exact hany (List.any_eq_true.mpr ⟨x, hx, hpx⟩)
      rw [hnone, Option.none_or, List.find?_cons_of_pos _ (by simp)]
      rfl
    · have h1 : List.find? (fun (p : String × List Shift) => p.1 == d') [(day, [])] =
          none := by
        rw [List.find?_cons_of_neg _ (by simpa using fun h => hd h.symm)]
        rfl
      rw [h1, Option.or_none]

lemma dayShifts_foldl_append {α : Type} (mk : α → Shift) (day : String) :
    ∀ (l : List α) (sc : Sched),
    dayShifts (l.foldl (fun s x => appendShift s day (mk x)) sc) day
      = dayShifts sc day ++ l.map mk ∧
    ∀ d', d' ≠ day → dayShifts (l.foldl (fun s x => appendShift s day (mk x)) sc) d'
      = dayShifts sc d'
  | [], sc => ⟨by simp, fun d' _ => rfl⟩
  | x :: xs, sc => by
    obtain ⟨h1, h2⟩ := dayShifts_foldl_append mk day xs (appendShift sc day (mk x))
    refine ⟨?_, ?_⟩
    · rw [List.foldl_cons, h1, dayShifts_appendShift_same]
      simp
    · intro d' hd'
      rw [List.foldl_cons, h2 d' hd', dayShifts_appendShift_other sc day d' (mk x) hd']

lemma availGet_sub {w : Worker} {day : String} :
    ∀ a ∈ availGet w day, ∃ p ∈ w.availability, a ∈ p.2 := by
  intro a ha
  unfold availGet at ha
  cases hfind : w.availability.find? (fun p => p.1 == day) with
  | none => rw [hfind] at ha; simp at ha
  | some p =>
    rw [hfind] at ha
    simp only [Option.map_some', Option.getD_some] at ha
    exact ⟨p, List.mem_of_find?_eq_some hfind, ha⟩

/-! ## Free-slot subtraction lemmas -/

lemma subOne_step_mem {b : ℚ × ℚ} {acc : List (ℚ × ℚ)} {p x : ℚ × ℚ}
    (hx : x ∈ (if p.2 ≤ b.1 ∨ b.2 ≤ p.1 then acc ++ [(p.1, p.2)]
      else (if p.1 < b.1 then acc ++ [(p.1, b.1)] else acc) ++
        (if b.2 < p.2 then [(b.2, p.2)] else []))) :
    x ∈ acc ∨ x = (p.1, p.2) ∨ x = (p.1, b.1) ∨ x = (b.2, p.2) := by
  split_ifs at hx <;> simp [List.mem_append] at hx <;> tauto

lemma subOne_piece_full {p b : ℚ × ℚ} (h : p.2 ≤ b.1 ∨ b.2 ≤ p.1) :
    disjQ (p.1, p.2) b := by
  intro hlt
  simp only at hlt
  rcases h with h | h
  · have h1 : min p.2 b.2 ≤ p.2 := min_le_left _ _
    have h2 : b.1 ≤ max p.1 b.1 := le_max_right _ _
    linarith
  · have h1 : min p.2 b.2 ≤ b.2 := min_le_right _ _
    have h2 : p.1 ≤ max p.1 b.1 := le_max_left _ _
    linarith

lemma subOne_piece_left {p b : ℚ × ℚ} (hb : b.1 ≤ b.2) : disjQ (p.1, b.1) b := by
  intro hlt
  simp only at hlt
  have h1 : min b.1 b.2 ≤ b.1 := min_le_left _ _
  have h2 : b.1 ≤ max p.1 b.1 := le_max_right _ _
  linarith

lemma subOne_piece_right {p b : ℚ × ℚ} : disjQ (b.2, p.2) b := by
  intro hlt
  simp only at hlt
  have h1 : min p.2 b.2 ≤ b.2 := min_le_right _ _
  have h2 : b.2 ≤ max b.2 b.1 := le_max_left _ _
  linarith

lemma subOne_go (b : ℚ × ℚ) (hb : b.1 ≤ b.2) :
    ∀ (F acc : List (ℚ × ℚ)),
    acc.Pairwise disjQ → F.Pairwise disjQ →
    (∀ a ∈ acc, ∀ p ∈ F, disjQ a p) →
    (F.foldl (fun new_free p =>
      if p.2 ≤ b.1 ∨ b.2 ≤ p.1 then new_free ++ [(p.1, p.2)]
      else (if p.1 < b.1 then new_free ++ [(p.1, b.1)] else new_free) ++
        (if b.2 < p.2 then [(b.2, p.2)] else [])) acc).Pairwise disjQ ∧
    (∀ x ∈ F.foldl (fun new_free p =>
      if p.2 ≤ b.1 ∨ b.2 ≤ p.1 then new_free ++ [(p.1, p.2)]
      else (if p.1 < b.1 then new_free ++ [(p.1, b.1)] else new_free) ++
        (if b.2 < p.2 then [(b.2, p.2)] else [])) acc,
      x ∈ acc ∨ ((∃ p ∈ F, p.1 ≤ x.1 ∧ x.2 ≤ p.2) ∧ disjQ x b))
  | [], acc, hacc, _, _ => ⟨hacc, fun x hx => Or.inl hx⟩
  | p :: rest, acc, hacc, hF, hcross => by
    simp only [List.foldl_cons]
    have hFtail := List.pairwise_cons.mp hF
    have hpieces : ∀ x ∈ (if p.2 ≤ b.1 ∨ b.2 ≤ p.1 then acc ++ [(p.1, p.2)]
        else (if p.1 < b.1 then acc ++ [(p.1, b.1)] else acc) ++
          (if b.2 < p.2 then [(b.2, p.2)] else [])),
        x ∈ acc ∨ ((p.1 ≤ x.1 ∧ x.2 ≤ p.2) ∧ disjQ x b) := by
      intro x hx
      split_ifs at hx with h1 h2 h3
      · rcases List.mem_append.mp hx with hx | hx
        · exact Or.inl hx
        · rw [List.mem_singleton] at hx
          subst hx
          exact Or.inr ⟨⟨le_rfl, le_rfl⟩, subOne_piece_full h1⟩
      · push_neg at h1
        rcases List.mem_append.mp hx with hx | hx
        · rcases List.mem_append.mp hx with hx | hx
          · exact Or.inl hx
          · rw [List.mem_singleton] at hx
            subst hx
            exact Or.inr ⟨⟨le_rfl, le_of_lt h1.1⟩, subOne_piece_left hb⟩
        · rw [List.mem_singleton] at hx
          subst hx
          exact Or.inr ⟨⟨le_of_lt h1.2, le_rfl⟩, subOne_piece_right⟩
      · push_neg at h1
        rw [List.append_nil] at hx
        rcases List.mem_append.mp hx with hx | hx
        · exact Or.inl hx
        · rw [List.mem_singleton] at hx
          subst hx
          exact Or.inr ⟨⟨le_rfl, le_of_lt h1.1⟩, subOne_piece_left hb⟩
      · push_neg at h1
        rcases List.mem_append.mp hx with hx | hx
        · exact Or.inl hx
        · rw [List.mem_singleton] at hx
          subst hx
          exact Or.inr ⟨⟨le_of_lt h1.2, le_rfl⟩, subOne_piece_right⟩
      · rw [List.append_nil] at hx
        exact Or.inl hx
    have hacc2 : (if p.2 ≤ b.1 ∨ b.2 ≤ p.1 then acc ++ [(p.1, p.2)]
        else (if p.1 < b.1 then acc ++ [(p.1, b.1)] else acc) ++
          (if b.2 < p.2 then [(b.2, p.2)] else [])).Pairwise disjQ := by
      have hcrossp : ∀ a ∈ acc, disjQ a p := fun a ha =>
        hcross a ha p (List.mem_cons_self p rest)
      split_ifs with h1 h2 h3
      · rw [List.pairwise_append]
        refine ⟨hacc, by simp, ?_⟩
        intro a ha x hx
        rw [List.mem_singleton] at hx
        subst hx
        exact disjQ_of_subset_right le_rfl le_rfl (hcrossp a ha)
      · push_neg at h1
        rw [List.pairwise_append]
        refine ⟨?_, by simp, ?_⟩
        · rw [List.pairwise_append]
          refine ⟨hacc, by simp, ?_⟩
          intro a ha x hx
          rw [List.mem_singleton] at hx
          subst hx
          exact disjQ_of_subset_right (le_refl p.1) (le_of_lt h1.1) (hcrossp a ha)
        · intro a ha x hx
          rw [List.mem_singleton] at hx
          subst hx
          rcases List.mem_append.mp ha with ha | ha
          · exact disjQ_of_subset_right (le_of_lt h1.2) le_rfl (hcrossp a ha)
          · rw [List.mem_singleton] at ha
            subst ha
            intro hlt
            simp only at hlt
            have e1 : min b.1 p.2 ≤ b.1 := min_le_left _ _
            have e2 : b.2 ≤ max p.1 b.2 := le_max_right _ _
            linarith
      · push_neg at h1
        rw [List.append_nil, List.pairwise_append]
        refine ⟨hacc, by simp, ?_⟩
        intro a ha x hx
        rw [List.mem_singleton] at hx
        subst hx
        exact disjQ_of_subset_right (le_refl p.1) (le_of_lt h1.1) (hcrossp a ha)
      · push_neg at h1
        rw [List.pairwise_append]
        refine ⟨hacc, by simp, ?_⟩
        intro a ha x hx
        rw [List.mem_singleton] at hx
        subst hx
        exact disjQ_of_subset_right (le_of_lt h1.2) le_rfl (hcrossp a ha)
      · rw [List.append_nil]
        exact hacc
    have hcross2 : ∀ a ∈ (if p.2 ≤ b.1 ∨ b.2 ≤ p.1 then acc ++ [(p.1, p.2)]
        else (if p.1 < b.1 then acc ++ [(p.1, b.1)] else acc) ++
          (if b.2 < p.2 then [(b.2, p.2)] else [])), ∀ q ∈ rest, disjQ a q := by
      intro a ha q hq
      rcases hpieces a ha with ha' | ⟨⟨hc1, hc2⟩, _⟩
      · exact hcross a ha' q (List.mem_cons_of_mem p hq)
      · exact disjQ_of_subset hc1 hc2 (hFtail.1 q hq)
    obtain ⟨ih1, ih2⟩ := subOne_go b hb rest _ hacc2 hFtail.2 hcross2
    refine ⟨ih1, ?_⟩
    intro x hx
    rcases ih2 x hx with hx' | ⟨⟨q, hq, hq1, hq2⟩, hdb⟩
    · rcases hpieces x hx' with hxa | ⟨⟨hc1, hc2⟩, hdb⟩
      · exact Or.inl hxa
      · exact Or.inr ⟨⟨p, List.mem_cons_self p rest, hc1, hc2⟩, hdb⟩
    · exact Or.inr ⟨⟨q, List.mem_cons_of_mem p hq, hq1, hq2⟩, hdb⟩

lemma subOne_facts (b : ℚ × ℚ) (hb : b.1 ≤ b.2) (F : List (ℚ × ℚ))
    (hF : F.Pairwise disjQ) :
    (subOne F b).Pairwise disjQ ∧
    (∀ x ∈ subOne F b, ∃ p ∈ F, p.1 ≤ x.1 ∧ x.2 ≤ p.2) ∧
    (∀ x ∈ subOne F b, disjQ x b) := by
  have h := subOne_go b hb F [] (by simp) hF (by simp)
  refine ⟨h.1, ?_, ?_⟩
  · intro x hx
    rcases h.2 x hx with hx' | ⟨he, _⟩
    · simp at hx'
    · exact he
  · intro x hx
    rcases h.2 x hx with hx' | ⟨_, hd⟩
    · simp at hx'
    · exact hd

lemma subtractBlocks_facts : ∀ (blocks init : List (ℚ × ℚ)),
    (∀ b ∈ blocks, b.1 ≤ b.2) → init.Pairwise disjQ →
    (subtractBlocks blocks init).Pairwise disjQ ∧
    (∀ x ∈ subtractBlocks blocks init, ∃ p ∈ init, p.1 ≤ x.1 ∧ x.2 ≤ p.2) ∧
    (∀ x ∈ subtractBlocks blocks init, ∀ b ∈ blocks, disjQ x b)
  | [], init, _, hinit => ⟨hinit, fun x hx => ⟨x, hx, le_rfl, le_rfl⟩, by simp⟩
  | b :: bs, init, hbs, hinit => by
    have h1 := subOne_facts b (hbs b (List.mem_cons_self b bs)) init hinit
    have h2 := subtractBlocks_facts bs (subOne init b)
      (fun b' hb' => hbs b' (List.mem_cons_of_mem b hb')) h1.1
    refine ⟨h2.1, ?_, ?_⟩
    · intro x hx
      obtain ⟨q, hq, hq1, hq2⟩ := h2.2.1 x hx
      obtain ⟨p, hp, hp1, hp2⟩ := h1.2.1 q hq
      exact ⟨p, hp, le_trans hp1 hq1, le_trans hq2 hp2⟩
    · intro x hx b' hb'
      rcases List.mem_cons.mp hb' with rfl | hb'
      · obtain ⟨q, hq, hq1, hq2⟩ := h2.2.1 x hx
        exact disjQ_of_subset hq1 hq2 (h1.2.2 q hq)
      · exact h2.2.2 x hx b' hb'

lemma subOne_q60 (b : ℚ × ℚ) (hbQ : isQ60 b.1 ∧ isQ60 b.2) (F : List (ℚ × ℚ))
    (hFQ : ∀ p ∈ F, isQ60 p.1 ∧ isQ60 p.2) :
    ∀ x ∈ subOne F b, isQ60 x.1 ∧ isQ60 x.2 := by
  unfold subOne
  refine foldl_preserve (fun (acc : List (ℚ × ℚ)) => ∀ x ∈ acc, isQ60 x.1 ∧ isQ60 x.2)
    _ F ?_ [] (by simp)
  intro acc p hp hacc x hx
  rcases subOne_step_mem hx with hxa | rfl | rfl | rfl
  · exact hacc x hxa
  · exact hFQ p hp
  · exact ⟨(hFQ p hp).1, hbQ.1⟩
  · exact ⟨hbQ.2, (hFQ p hp).2⟩

lemma subtractBlocks_q60 : ∀ (blocks init : List (ℚ × ℚ)),
    (∀ b ∈ blocks, isQ60 b.1 ∧ isQ60 b.2) → (∀ p ∈ init, isQ60 p.1 ∧ isQ60 p.2) →
    ∀ x ∈ subtractBlocks blocks init, isQ60 x.1 ∧ isQ60 x.2
  | [], _, _, hinit => hinit
  | b :: bs, init, hbs, hinit =>
    subtractBlocks_q60 bs (subOne init b)
      (fun b' hb' => hbs b' (List.mem_cons_of_mem b hb'))
      (subOne_q60 b (hbs b (List.mem_cons_self b bs)) init hinit)

/-! ## Whole-minute and ordering facts for the split pieces -/

lemma greedy_q60 : ∀ (ws : List (String × ℚ × ℚ)) (rem : ℚ) (pf : Bool),
    (∀ p ∈ ws, p.2.1 ≤ p.2.2 ∧ isQ60 p.2.1 ∧ isQ60 p.2.2) → isQ60 rem → 0 ≤ rem →
    ∀ q ∈ greedyConsume ws rem pf, isQ60 q.2.1 ∧ isQ60 q.2.2.1 ∧ q.2.1 ≤ q.2.2.1
  | [], _, _, _, _, _ => by simp [greedyConsume]
  | (day, s, e) :: rest, rem, pf, hws, hrem, h0 => by
    rw [greedyConsume]
    split_ifs with hle hsplit
    · simp
    · intro q hq
      have hs : isQ60 s := (hws (day, s, e) (List.mem_cons_self _ _)).2.1
      have h3 : isQ60 (3 : ℚ) := ⟨180, by norm_num⟩
      have h5 : isQ60 (5 : ℚ) := ⟨300, by norm_num⟩
      rcases List.mem_cons.mp hq with rfl | hq
      · exact ⟨hs, isQ60_add hs h3, by dsimp only; linarith⟩
      · rw [List.mem_singleton] at hq
        subst hq
        exact ⟨isQ60_add hs h3, isQ60_add hs h5, by dsimp only; linarith⟩
    · intro q hq
      have hhead := hws (day, s, e) (List.mem_cons_self _ _)
      have hmin : isQ60 (min (e - s) rem) := isQ60_min (isQ60_sub hhead.2.2 hhead.2.1) hrem
      have hmin0 : 0 ≤ min (e - s) rem := le_min (by linarith [hhead.1]) h0
      rcases List.mem_cons.mp hq with rfl | hq
      · exact ⟨hhead.2.1, isQ60_add hhead.2.1 hmin, by dsimp only; linarith⟩
      · exact greedy_q60 rest (rem - min (e - s) rem) pf
          (fun p hp => hws p (List.mem_cons_of_mem _ hp))
          (isQ60_sub hrem hmin) (by linarith [min_le_right (e - s) rem]) q hq

lemma optimal_q60 (windows : List (String × ℚ × ℚ))
    (hlt : ∀ p ∈ windows, p.2.1 < p.2.2)
    (hQ : ∀ p ∈ windows, isQ60 p.2.1 ∧ isQ60 p.2.2)
    (rem : ℚ) (hrem : isQ60 rem) (h0 : 0 ≤ rem) (pf : Bool) :
    ∀ q ∈ find_optimal_shift_split windows rem pf,
      isQ60 q.2.1 ∧ isQ60 q.2.2.1 ∧ q.2.1 ≤ q.2.2.1 := by
  unfold find_optimal_shift_split
  by_cases hempty : windows = [] ∨ rem ≤ 0
  · rw [if_pos hempty]
    simp
  · rw [if_neg hempty]
    dsimp only
    by_cases htot : (List.map (fun p => p.2.2 - p.2.1) windows).sum < rem
    · rw [if_pos htot]
      intro q hq
      obtain ⟨p, hp, hpq⟩ := List.mem_map.mp hq
      subst hpq
      exact ⟨(hQ p hp).1, (hQ p hp).2, le_of_lt (hlt p hp)⟩
    · rw [if_neg htot]
      cases hperf : (if pf = true ∧ rem = 5 then perfect32 windows else none) with
      | some r =>
        have hperf2 : perfect32 windows = some r := by
          by_cases hc : pf = true ∧ rem = 5
          · rw [if_pos hc] at hperf
            exact hperf
          · rw [if_neg hc] at hperf
            exact absurd hperf (by simp)
        obtain ⟨d1, s1, e1, d2, s2, e2, h1w, h2w, _, _, _, _, hr⟩ := perfect32_spec hperf2
        subst hr
        intro q hq
        have hs1 : isQ60 s1 := (hQ (d1, s1, e1) h1w).1
        have hs2 : isQ60 s2 := (hQ (d2, s2, e2) h2w).1
        have h3 : isQ60 (3 : ℚ) := ⟨180, by norm_num⟩
        have h2q : isQ60 (2 : ℚ) := ⟨120, by norm_num⟩
        rcases List.mem_cons.mp hq with rfl | hq
        · exact ⟨hs1, isQ60_add hs1 h3, by dsimp only; linarith⟩
        · rw [List.mem_singleton] at hq
          subst hq
          exact ⟨hs2, isQ60_add hs2 h2q, by dsimp only; linarith⟩
      | none =>
        intro q hq
        refine greedy_q60 (sortByKey (fun p => p.2.2 - p.2.1) windows) rem pf ?_ hrem h0 q hq
        intro p hp
        have hpw : p ∈ windows := by
          unfold sortByKey at hp
          exact (List.perm_insertionSort _ windows).mem_iff.mp hp
        exact ⟨le_of_lt (hlt p hpw), (hQ p hpw).1, (hQ p hpw).2⟩

lemma windowsFor_q60 (hop : List (String × List OpInterval)) (w : Worker)
    (hopsQ : ∀ p ∈ hop, ∀ op ∈ p.2,
      isQ60 (time_to_hour op.start) ∧ isQ60 (time_to_hour op.stop))
    (havail : ∀ p ∈ w.availability, ∀ a ∈ p.2, isQ60 a.start_hour ∧ isQ60 a.end_hour) :
    ∀ p ∈ windowsFor hop w, isQ60 p.2.1 ∧ isQ60 p.2.2 := by
  unfold windowsFor
  refine foldl_preserve
    (fun (acc : List (String × ℚ × ℚ)) => ∀ p ∈ acc, isQ60 p.2.1 ∧ isQ60 p.2.2)
    _ hop ?_ [] (by simp)
  intro acc p hpmem hacc
  dsimp only
  refine foldl_preserve
    (fun (acc : List (String × ℚ × ℚ)) => ∀ x ∈ acc, isQ60 x.2.1 ∧ isQ60 x.2.2)
    _ p.2 ?_ acc hacc
  intro acc2 op hopmem hacc2
  dsimp only
  refine foldl_preserve
    (fun (acc : List (String × ℚ × ℚ)) => ∀ x ∈ acc, isQ60 x.2.1 ∧ isQ60 x.2.2)
    _ (availGet w p.1) ?_ acc2 hacc2
  intro acc3 a hamem hacc3
  dsimp only
  have hopQ := hopsQ p hpmem op hopmem
  obtain ⟨pa, hpa, hapa⟩ := availGet_sub a hamem
  have haQ := havail pa hpa a hapa
  split_ifs with h1 h2 h3
  · intro x hx
    rcases List.mem_append.mp hx with hx | hx
    · exact hacc3 x hx
    · rw [List.mem_singleton] at hx
      subst hx
      exact ⟨isQ60_max hopQ.1 haQ.1,
        isQ60_min (isQ60_add hopQ.2 ⟨1440, by norm_num⟩) haQ.2⟩
  · exact hacc3
  · intro x hx
    rcases List.mem_append.mp hx with hx | hx
    · exact hacc3 x hx
    · rw [List.mem_singleton] at hx
      subst hx
      exact ⟨isQ60_max hopQ.1 haQ.1, isQ60_min hopQ.2 haQ.2⟩
  · exact hacc3

/-! ## Phase-1 schedule invariant -/

lemma wsApply_inv (mw : Nat) (w : Worker) (piece : String × ℚ × ℚ × ℚ)
    (hp : isQ60 piece.2.1 ∧ isQ60 piece.2.2.1 ∧ piece.2.1 ≤ piece.2.2.1)
    (st : St) (ha : allWF st.schedule) (hws : allWS st.schedule) :
    allWF (wsApplyShift mw w st piece).schedule ∧
    allWS (wsApplyShift mw w st piece).schedule := by
  unfold wsApplyShift
  dsimp only
  split
  · constructor
    · intro d sh hsh
      by_cases hd : d = piece.1
      · subst hd
        rw [dayShifts_appendShift_same] at hsh
        rcases List.mem_append.mp hsh with hsh | hsh
        · exact ha _ sh hsh
        · rw [List.mem_singleton] at hsh
          subst hsh
          exact ⟨rfl, rfl, hp.1, hp.2.1, hp.2.2⟩
      · rw [dayShifts_appendShift_other _ _ _ _ hd] at hsh
        exact ha _ sh hsh
    · intro d sh hsh
      by_cases hd : d = piece.1
      · subst hd
        rw [dayShifts_appendShift_same] at hsh
        rcases List.mem_append.mp hsh with hsh | hsh
        · exact hws _ sh hsh
        · rw [List.mem_singleton] at hsh
          subst hsh
          rfl
      · rw [dayShifts_appendShift_other _ _ _ _ hd] at hsh
        exact hws _ sh hsh
  · exact ⟨ha, hws⟩

lemma phase1_inv (hop : List (String × List OpInterval)) (ws : List Worker) (mw : Nat)
    (hopsQ : ∀ p ∈ hop, ∀ op ∈ p.2,
      isQ60 (time_to_hour op.start) ∧ isQ60 (time_to_hour op.stop))
    (havail : ∀ w ∈ ws, ∀ p ∈ w.availability, ∀ a ∈ p.2,
      isQ60 a.start_hour ∧ isQ60 a.end_hour)
    (st0 : St) (h0a : allWF st0.schedule) (h0b : allWS st0.schedule) :
    allWF (phase1 hop ws mw st0).schedule ∧ allWS (phase1 hop ws mw st0).schedule := by
  unfold phase1
  refine foldl_preserve (fun (st : St) => allWF st.schedule ∧ allWS st.schedule) _ ws
    ?_ st0 ⟨h0a, h0b⟩
  intro st w hw hst
  dsimp only
  refine foldl_preserve (fun (st : St) => allWF st.schedule ∧ allWS st.schedule) _ _
    ?_ st hst
  intro st2 piece hpiece hst2
  have hQ := optimal_q60 (windowsFor hop w) (windowsFor_lt hop w)
    (windowsFor_q60 hop w hopsQ (havail w hw)) 5 ⟨300, by norm_num⟩ (by norm_num) true
    piece hpiece
  exact wsApply_inv mw w piece hQ st2 hst2.1 hst2.2

/-! ## Phase-2 carve-step invariant -/

lemma len_pick_fact (lengths lengthsBase : List ℚ) (hperm : lengths.Perm lengthsBase)
    (hlen : ∀ l ∈ lengthsBase, 0 ≤ l ∧ isQ60 l) (cur e0 : ℚ) :
    0 ≤ (lengths.find? (fun l => decide (cur + l ≤ e0))).getD (lengths.headD 0) ∧
    isQ60 ((lengths.find? (fun l => decide (cur + l ≤ e0))).getD (lengths.headD 0)) := by
  cases hfind : lengths.find? (fun l => decide (cur + l ≤ e0)) with
  | some l =>
    have hl : l ∈ lengthsBase := hperm.mem_iff.mp (List.mem_of_find?_eq_some hfind)
    simpa using hlen l hl
  | none =>
    cases hlb : lengths with
    | nil => exact ⟨le_rfl, ⟨0, by norm_num⟩⟩
    | cons x xs =>
      have hx : x ∈ lengthsBase := hperm.mem_iff.mp (by rw [hlb]; exact List.mem_cons_self x xs)
      simpa using hlen x hx

lemma disjQ_chain {cur endS e0 : ℚ} (h1 : cur ≤ endS) (h2 : endS ≤ e0) :
    disjQ (cur, endS) (endS, e0) := by
  intro h
  simp only at h
  have e1 : endS ≤ max cur endS := le_max_right _ _
  have e2 : min endS e0 ≤ endS := min_le_left _ _
  linarith

lemma day_batch_inv (cur endS e0 s0 : ℚ) (S : List (ℚ × ℚ)) (old new : List Shift)
    (hold_wf : ∀ sh ∈ old, shiftWF sh) (hold_pw : old.Pairwise rawOk)
    (hc : ∀ sh ∈ old, disjQ (sh.sh, sh.eh) (cur, e0))
    (hd : ∀ sh ∈ old, ∀ t ∈ S, disjQ (sh.sh, sh.eh) t)
    (hnew_wf : ∀ sh ∈ new, shiftWF sh)
    (hnew_iv : ∀ sh ∈ new, sh.sh = cur ∧ sh.eh = endS)
    (hnew_pw : new.Pairwise rawOk)
    (hcurE : cur ≤ endS) (hEe0 : endS ≤ e0) (hs0 : s0 ≤ cur)
    (hS : ∀ t ∈ S, disjQ t (s0, e0)) :
    (∀ sh ∈ old ++ new, shiftWF sh) ∧ (old ++ new).Pairwise rawOk ∧
    (∀ sh ∈ old ++ new, disjQ (sh.sh, sh.eh) (endS, e0)) ∧
    (∀ sh ∈ old ++ new, ∀ t ∈ S, disjQ (sh.sh, sh.eh) t) := by
  refine ⟨?_, ?_, ?_, ?_⟩
  · intro sh hsh
    rcases List.mem_append.mp hsh with h | h
    · exact hold_wf sh h
    · exact hnew_wf sh h
  · rw [List.pairwise_append]
    refine ⟨hold_pw, hnew_pw, ?_⟩
    intro a hao b hbn
    refine Or.inr (Or.inl ?_)
    obtain ⟨hb1, hb2⟩ := hnew_iv b hbn
    rw [hb1, hb2]
    exact disjQ_of_subset_right (le_refl cur) hEe0 (hc a hao)
  · intro sh hsh
    rcases List.mem_append.mp hsh with h | h
    · exact disjQ_of_subset_right hcurE (le_refl e0) (hc sh h)
    · obtain ⟨h1, h2⟩ := hnew_iv sh h
      rw [h1, h2]
      exact disjQ_chain hcurE hEe0
  · intro sh hsh t ht
    rcases List.mem_append.mp hsh with h | h
    · exact hd sh h t ht
    · obtain ⟨h1, h2⟩ := hnew_iv sh h
      rw [h1, h2]
      exact disjQ_of_subset hs0 hEe0 (disjQ_symm (hS t ht))

lemma carveStep_inv (workers : List Worker) (ws_status : String → Bool) (maxH : ℚ)
    (maxW : Nat) (orc : Oracle) (day : String) (e0 : ℚ) (lengthsBase : List ℚ)
    (hnd : (workers.map Worker.email).Nodup) (hpick : ∀ k l, (orc.pick k l).Perm l)
    (hshuf : ∀ k l, (orc.lenShuffle k l).Perm l)
    (hlen : ∀ l ∈ lengthsBase, 0 ≤ l ∧ isQ60 l) (hQe : isQ60 e0)
    (s0 : ℚ) (S : List (ℚ × ℚ)) (hS : ∀ t ∈ S, disjQ t (s0, e0))
    (cur : ℚ) (stk : St × Nat)
    (hcur : isQ60 cur) (hs0 : s0 ≤ cur) (hlt : cur < e0)
    (ha : allWF stk.1.schedule)
    (hb : ∀ d, (dayShifts stk.1.schedule d).Pairwise rawOk)
    (hc : ∀ sh ∈ dayShifts stk.1.schedule day, disjQ (sh.sh, sh.eh) (cur, e0))
    (hd : ∀ sh ∈ dayShifts stk.1.schedule day, ∀ t ∈ S, disjQ (sh.sh, sh.eh) t) :
    allWF (carveStep workers ws_status maxH maxW orc day e0 lengthsBase cur
      stk).1.1.schedule ∧
    (∀ d, (dayShifts (carveStep workers ws_status maxH maxW orc day e0 lengthsBase cur
      stk).1.1.schedule d).Pairwise rawOk) ∧
    (∀ sh ∈ dayShifts (carveStep workers ws_status maxH maxW orc day e0 lengthsBase cur
      stk).1.1.schedule day,
      disjQ (sh.sh, sh.eh)
        ((carveStep workers ws_status maxH maxW orc day e0 lengthsBase cur stk).2, e0)) ∧
    (∀ sh ∈ dayShifts (carveStep workers ws_status maxH maxW orc day e0 lengthsBase cur
      stk).1.1.schedule day, ∀ t ∈ S, disjQ (sh.sh, sh.eh) t) ∧
    isQ60 (carveStep workers ws_status maxH maxW orc day e0 lengthsBase cur stk).2 ∧
    s0 ≤ (carveStep workers ws_status maxH maxW orc day e0 lengthsBase cur stk).2 ∧
    cur ≤ (carveStep workers ws_status maxH maxW orc day e0 lengthsBase cur stk).2 := by
  obtain ⟨hl0, hlQ⟩ := len_pick_fact (orc.lenShuffle stk.2 lengthsBase) lengthsBase
    (hshuf stk.2 lengthsBase) hlen cur e0
  unfold carveStep
  dsimp only
  set L := ((orc.lenShuffle stk.2 lengthsBase).find?
    (fun l => decide (cur + l ≤ e0))).getD ((orc.lenShuffle stk.2 lengthsBase).headD 0)
    with hL
  set E := min (cur + L) e0 with hE
  have hcurE : cur ≤ E := le_min (by linarith) (le_of_lt hlt)
  have hEe0 : E ≤ e0 := min_le_right _ _
  have hEQ : isQ60 E := isQ60_min (isQ60_add hcur hlQ) hQe
  set A := eligibleWorkers workers ws_status day cur E (E - cur) maxH stk.1 with hA
  set C := (orc.pick (stk.2 + 1) A).take maxW with hC
  have hndc : (C.map Worker.email).Nodup :=
    (chosen_sub_and_nodup (stk.2 + 1) A maxW hpick (avail_emails_nodup hnd)).2
  let mkC : Worker → Shift := fun x =>
    { start := hour_to_time_str cur, stop := hour_to_time_str E, assigned := [wname x],
      available := A.map wname, raw_assigned := [x.email], all_available := A,
      is_work_study := false, sh := cur, eh := E }
  let mkU : Shift :=
    { start := hour_to_time_str cur, stop := hour_to_time_str E, assigned := ["Unfilled"],
      available := A.map wname, raw_assigned := [], all_available := A,
      is_work_study := false, sh := cur, eh := E }
  have hfold2 := dayShifts_foldl_append mkC day C stk.1.schedule
  have hfold3 := dayShifts_foldl_append (fun (_ : Nat) => mkU) day
    (List.range (maxW - C.length))
    (C.foldl (fun sc x => appendShift sc day (mkC x)) stk.1.schedule)
  have hnew_wf : ∀ sh ∈ (C.map mkC ++ (List.range (maxW - C.length)).map
      (fun _ => mkU)), shiftWF sh := by
    intro sh hsh
    rcases List.mem_append.mp hsh with h | h
    · obtain ⟨x, hx, rfl⟩ := List.mem_map.mp h
      exact ⟨rfl, rfl, hcur, hEQ, hcurE⟩
    · obtain ⟨x, hx, rfl⟩ := List.mem_map.mp h
      exact ⟨rfl, rfl, hcur, hEQ, hcurE⟩
  have hnew_iv : ∀ sh ∈ (C.map mkC ++ (List.range (maxW - C.length)).map
      (fun _ => mkU)), sh.sh = cur ∧ sh.eh = E := by
    intro sh hsh
    rcases List.mem_append.mp hsh with h | h
    · obtain ⟨x, hx, rfl⟩ := List.mem_map.mp h
      exact ⟨rfl, rfl⟩
    · obtain ⟨x, hx, rfl⟩ := List.mem_map.mp h
      exact ⟨rfl, rfl⟩
  have hnew_pw : (C.map mkC ++ (List.range (maxW - C.length)).map
      (fun _ => mkU)).Pairwise rawOk := by
    rw [List.pairwise_append]
    refine ⟨?_, ?_, ?_⟩
    · rw [List.pairwise_map]
      have hpne : C.Pairwise (fun x y => x.email ≠ y.email) := List.pairwise_map.mp hndc
      refine hpne.imp ?_
      intro x y hxy
      refine Or.inr (Or.inr ?_)
      intro em hem hem2
      rw [List.mem_singleton] at hem hem2
      exact hxy (hem ▸ hem2)
    · rw [List.pairwise_map]
      refine List.pairwise_of_forall_mem_list ?_
      intro a _ b _
      exact Or.inr (Or.inr (fun em hem => absurd hem (List.not_mem_nil em)))
    · intro a ha' b hb'
      obtain ⟨x, hx, rfl⟩ := List.mem_map.mp ha'
      obtain ⟨y, hy, rfl⟩ := List.mem_map.mp hb'
      exact Or.inr (Or.inr (fun em _ hem2 => absurd hem2 (List.not_mem_nil em)))
  have hbatch := day_batch_inv cur E e0 s0 S (dayShifts stk.1.schedule day)
    (C.map mkC ++ (List.range (maxW - C.length)).map (fun _ => mkU))
    (ha day) (hb day) hc hd hnew_wf hnew_iv hnew_pw hcurE hEe0 hs0 hS
  refine ⟨?_, ?_, ?_, ?_, hEQ, le_trans hs0 hcurE, hcurE⟩
  · intro d sh hsh
    by_cases hdd : d = day
    · subst hdd
      rw [hfold3.1, hfold2.1, List.append_assoc] at hsh
      exact hbatch.1 sh hsh
    · rw [hfold3.2 d hdd, hfold2.2 d hdd] at hsh
      exact ha d sh hsh
  · intro d
    by_cases hdd : d = day
    · subst hdd
      rw [hfold3.1, hfold2.1, List.append_assoc]
      exact hbatch.2.1
    · rw [hfold3.2 d hdd, hfold2.2 d hdd]
      exact hb d
  · intro sh hsh
    rw [hfold3.1, hfold2.1, List.append_assoc] at hsh
    exact hbatch.2.2.1 sh hsh
  · intro sh hsh t ht
    rw [hfold3.1, hfold2.1, List.append_assoc] at hsh
    exact hbatch.2.2.2 sh hsh t ht

lemma carve_inv (workers : List Worker) (ws_status : String → Bool) (maxH : ℚ)
    (maxW : Nat) (orc : Oracle) (day : String) (e0 : ℚ) (lengthsBase : List ℚ)
    (hnd : (workers.map Worker.email).Nodup) (hpick : ∀ k l, (orc.pick k l).Perm l)
    (hshuf : ∀ k l, (orc.lenShuffle k l).Perm l)
    (hlen : ∀ l ∈ lengthsBase, 0 ≤ l ∧ isQ60 l) (hQe : isQ60 e0)
    (s0 : ℚ) (S : List (ℚ × ℚ)) (hS : ∀ t ∈ S, disjQ t (s0, e0)) :
    ∀ (fuel : Nat) (cur : ℚ) (stk : St × Nat),
    isQ60 cur → s0 ≤ cur →
    allWF stk.1.schedule → (∀ d, (dayShifts stk.1.schedule d).Pairwise rawOk) →
    (∀ sh ∈ dayShifts stk.1.schedule day, disjQ (sh.sh, sh.eh) (cur, e0)) →
    (∀ sh ∈ dayShifts stk.1.schedule day, ∀ t ∈ S, disjQ (sh.sh, sh.eh) t) →
    allWF (carve workers ws_status maxH maxW orc day e0 lengthsBase fuel cur
      stk).1.schedule ∧
    (∀ d, (dayShifts (carve workers ws_status maxH maxW orc day e0 lengthsBase fuel cur
      stk).1.schedule d).Pairwise rawOk) ∧
    (∀ sh ∈ dayShifts (carve workers ws_status maxH maxW orc day e0 lengthsBase fuel cur
      stk).1.schedule day, ∀ t ∈ S, disjQ (sh.sh, sh.eh) t)
  | 0, cur, stk, _, _, ha, hb, _, hd => ⟨ha, hb, hd⟩
  | fuel + 1, cur, stk, hcur, hs0, ha, hb, hc, hd => by
    rw [carve]
    split_ifs with hlt
    · dsimp only
      have hstep := carveStep_inv workers ws_status maxH maxW orc day e0 lengthsBase hnd
        hpick hshuf hlen hQe s0 S hS cur stk hcur hs0 hlt ha hb hc hd
      exact carve_inv workers ws_status maxH maxW orc day e0 lengthsBase hnd hpick hshuf
        hlen hQe s0 S hS fuel
        (carveStep workers ws_status maxH maxW orc day e0 lengthsBase cur stk).2
        (carveStep workers ws_status maxH maxW orc day e0 lengthsBase cur stk).1
        hstep.2.2.2.2.1 hstep.2.2.2.2.2.1 hstep.1 hstep.2.1 hstep.2.2.1 hstep.2.2.2.1
    · exact ⟨ha, hb, hd⟩

lemma doSlot_inv (workers : List Worker) (ws_status : String → Bool)
    (shift_lengths : List ℚ) (maxH : ℚ) (maxW : Nat) (orc : Oracle) (day : String)
    (hnd : (workers.map Worker.email).Nodup) (hpick : ∀ k l, (orc.pick k l).Perm l)
    (hshuf : ∀ k l, (orc.lenShuffle k l).Perm l)
    (hSL : ∀ l ∈ shift_lengths, 0 ≤ l ∧ isQ60 l)
    (stk : St × Nat) (slot : ℚ × ℚ)
    (hslotQ : isQ60 slot.1 ∧ isQ60 slot.2)
    (S : List (ℚ × ℚ)) (hS : ∀ t ∈ S, disjQ t slot)
    (ha : allWF stk.1.schedule)
    (hb : ∀ d, (dayShifts stk.1.schedule d).Pairwise rawOk)
    (hc : ∀ sh ∈ dayShifts stk.1.schedule day, disjQ (sh.sh, sh.eh) slot)
    (hd : ∀ sh ∈ dayShifts stk.1.schedule day, ∀ t ∈ S, disjQ (sh.sh, sh.eh) t) :
    allWF (doSlot workers ws_status shift_lengths maxH maxW orc day stk
      slot).1.schedule ∧
    (∀ d, (dayShifts (doSlot workers ws_status shift_lengths maxH maxW orc day stk
      slot).1.schedule d).Pairwise rawOk) ∧
    (∀ sh ∈ dayShifts (doSlot workers ws_status shift_lengths maxH maxW orc day stk
      slot).1.schedule day, ∀ t ∈ S, disjQ (sh.sh, sh.eh) t) := by
  unfold doSlot
  dsimp only
  split_ifs with hshort
  · exact ⟨ha, hb, hd⟩
  · have hlenB : ∀ l ∈ (match shift_lengths.filter (fun l => decide (l ≤ slot.2 - slot.1))
        with
      | [] => [2]
      | ls => ls), 0 ≤ l ∧ isQ60 l := by
      cases hf : shift_lengths.filter (fun l => decide (l ≤ slot.2 - slot.1)) with
      | nil =>
        intro l hl
        rw [List.mem_singleton] at hl
        subst hl
        exact ⟨by norm_num, ⟨120, by norm_num⟩⟩
      | cons x xs =>
        intro l hl
        have hl3 : l ∈ shift_lengths.filter (fun l => decide (l ≤ slot.2 - slot.1)) := by
          rw [hf]
          exact hl
        exact hSL l (List.mem_of_mem_filter hl3)
    exact carve_inv workers ws_status maxH maxW orc day slot.2 _ hnd hpick hshuf hlenB
      hslotQ.2 slot.1 S hS _ slot.1 stk hslotQ.1 le_rfl ha hb hc hd

lemma slots_fold_inv (workers : List Worker) (ws_status : String → Bool)
    (shift_lengths : List ℚ) (maxH : ℚ) (maxW : Nat) (orc : Oracle) (day : String)
    (hnd : (workers.map Worker.email).Nodup) (hpick : ∀ k l, (orc.pick k l).Perm l)
    (hshuf : ∀ k l, (orc.lenShuffle k l).Perm l)
    (hSL : ∀ l ∈ shift_lengths, 0 ≤ l ∧ isQ60 l) :
    ∀ (slots : List (ℚ × ℚ)) (stk : St × Nat),
    slots.Pairwise disjQ → (∀ t ∈ slots, isQ60 t.1 ∧ isQ60 t.2) →
    allWF stk.1.schedule → (∀ d, (dayShifts stk.1.schedule d).Pairwise rawOk) →
    (∀ sh ∈ dayShifts stk.1.schedule day, ∀ t ∈ slots, disjQ (sh.sh, sh.eh) t) →
    allWF ((slots.foldl (doSlot workers ws_status shift_lengths maxH maxW orc day)
      stk).1.schedule) ∧
    (∀ d, (dayShifts (slots.foldl (doSlot workers ws_status shift_lengths maxH maxW orc
      day) stk).1.schedule d).Pairwise rawOk)
  | [], stk, _, _, ha, hb, _ => ⟨ha, hb⟩
  | slot :: rest, stk, hpw, hQ, ha, hb, hdis => by
    simp only [List.foldl_cons]
    have hpw2 := List.pairwise_cons.mp hpw
    have hstep := doSlot_inv workers ws_status shift_lengths maxH maxW orc day hnd hpick
      hshuf hSL stk slot (hQ slot (List.mem_cons_self slot rest)) rest
      (fun t ht => disjQ_symm (hpw2.1 t ht))
      ha hb (fun sh hsh => hdis sh hsh slot (List.mem_cons_self slot rest))
      (fun sh hsh t ht => hdis sh hsh t (List.mem_cons_of_mem slot ht))
    exact slots_fold_inv workers ws_status shift_lengths maxH maxW orc day hnd hpick
      hshuf hSL rest _ hpw2.2 (fun t ht => hQ t (List.mem_cons_of_mem slot ht))
      hstep.1 hstep.2.1 hstep.2.2

lemma doOp_inv (workers : List Worker) (ws_status : String → Bool)
    (shift_lengths : List ℚ) (maxH : ℚ) (maxW : Nat) (orc : Oracle) (day : String)
    (hnd : (workers.map Worker.email).Nodup) (hpick : ∀ k l, (orc.pick k l).Perm l)
    (hshuf : ∀ k l, (orc.lenShuffle k l).Perm l)
    (hSL : ∀ l ∈ shift_lengths, 0 ≤ l ∧ isQ60 l)
    (stk : St × Nat) (op : OpInterval)
    (hopQ : isQ60 (time_to_hour op.start) ∧ isQ60 (time_to_hour op.stop))
    (ha : allWF stk.1.schedule)
    (hb : ∀ d, (dayShifts stk.1.schedule d).Pairwise rawOk) :
    allWF (doOp workers ws_status shift_lengths maxH maxW orc day stk op).1.schedule ∧
    (∀ d, (dayShifts (doOp workers ws_status shift_lengths maxH maxW orc day stk
      op).1.schedule d).Pairwise rawOk) := by
  unfold doOp
  dsimp only
  have hblocks : (dayShifts stk.1.schedule day).map
      (fun sh => (time_to_hour sh.start, time_to_hour sh.stop)) =
      (dayShifts stk.1.schedule day).map (fun sh => (sh.sh, sh.eh)) := by
    apply List.map_congr_left
    intro sh hsh
    obtain ⟨h1, h2, h3, h4, _⟩ := ha day sh hsh
    rw [h1, h2, isQ60_roundtrip h3, isQ60_roundtrip h4]
  rw [hblocks]
  set opS := time_to_hour op.start with hopS
  set opE := (if time_to_hour op.stop ≤ time_to_hour op.start
    then time_to_hour op.stop + 24 else time_to_hour op.stop) with hopEdef
  set B := (dayShifts stk.1.schedule day).map (fun sh => (sh.sh, sh.eh)) with hB
  set FS := subtractBlocks B [(opS, opE)] with hFS
  have hopE60 : isQ60 opE := by
    rw [hopEdef]
    split_ifs
    · exact isQ60_add hopQ.2 ⟨1440, by norm_num⟩
    · exact hopQ.2
  have hord : ∀ b ∈ B, b.1 ≤ b.2 := by
    intro b hb'
    rw [hB] at hb'
    obtain ⟨sh, hsh, rfl⟩ := List.mem_map.mp hb'
    exact (ha day sh hsh).2.2.2.2
  have hBQ : ∀ b ∈ B, isQ60 b.1 ∧ isQ60 b.2 := by
    intro b hb'
    rw [hB] at hb'
    obtain ⟨sh, hsh, rfl⟩ := List.mem_map.mp hb'
    exact ⟨(ha day sh hsh).2.2.1, (ha day sh hsh).2.2.2.1⟩
  have hsub := subtractBlocks_facts B [(opS, opE)] hord (by simp)
  have hsubQ := subtractBlocks_q60 B [(opS, opE)] hBQ (by
    intro p hp
    rw [List.mem_singleton] at hp
    subst hp
    exact ⟨hopQ.1, hopE60⟩)
  unfold sortByKey
  refine slots_fold_inv workers ws_status shift_lengths maxH maxW orc day hnd hpick hshuf
    hSL _ stk ?_ ?_ ha hb ?_
  · exact (List.Perm.pairwise_iff (fun h => disjQ_symm h)
      (List.perm_insertionSort _ FS)).mpr hsub.1
  · intro t ht
    exact hsubQ t ((List.perm_insertionSort _ FS).mem_iff.mp ht)
  · intro sh hsh t ht
    have htFS : t ∈ FS := (List.perm_insertionSort _ FS).mem_iff.mp ht
    refine disjQ_symm (hsub.2.2 t htFS (sh.sh, sh.eh) ?_)
    rw [hB]
    exact List.mem_map_of_mem _ hsh

lemma doDay_inv (hop : List (String × List OpInterval)) (workers : List Worker)
    (ws_status : String → Bool) (shift_lengths : List ℚ) (maxH : ℚ) (maxW : Nat)
    (orc : Oracle)
    (hhopQ : ∀ p ∈ hop, ∀ o ∈ p.2,
      isQ60 (time_to_hour o.start) ∧ isQ60 (time_to_hour o.stop))
    (hnd : (workers.map Worker.email).Nodup) (hpick : ∀ k l, (orc.pick k l).Perm l)
    (hshuf : ∀ k l, (orc.lenShuffle k l).Perm l)
    (hSL : ∀ l ∈ shift_lengths, 0 ≤ l ∧ isQ60 l)
    (stk : St × Nat) (day : String)
    (ha : allWF stk.1.schedule)
    (hb : ∀ d, (dayShifts stk.1.schedule d).Pairwise rawOk) :
    allWF (doDay hop workers ws_status shift_lengths maxH maxW orc stk day).1.schedule ∧
    (∀ d, (dayShifts (doDay hop workers ws_status shift_lengths maxH maxW orc stk
      day).1.schedule d).Pairwise rawOk) := by
  unfold doDay
  dsimp only
  split_ifs with hops
  · exact ⟨ha, hb⟩
  · have hopsQ2 : ∀ o ∈ (dlookup hop day).getD [],
        isQ60 (time_to_hour o.start) ∧ isQ60 (time_to_hour o.stop) := by
      cases hdl : dlookup hop day with
      | none => simp
      | some l =>
        unfold dlookup at hdl
        cases hfind : hop.find? (fun p => p.1 == day) with
        | none =>
          rw [hfind] at hdl
          simp at hdl
        | some p =>
          rw [hfind] at hdl
          simp only [Option.map_some'] at hdl
          have hpmem := List.mem_of_find?_eq_some hfind
          intro o ho
          rw [Option.getD_some] at ho
          refine hhopQ p hpmem o ?_
          rw [show p.2 = l from (Option.some.injEq _ _).mp hdl]
          exact ho
    have ha2 : allWF (ensureDay stk.1.schedule day) := by
      intro d sh hsh
      rw [dayShifts_ensureDay] at hsh
      exact ha d sh hsh
    have hb2 : ∀ d, (dayShifts (ensureDay stk.1.schedule day) d).Pairwise rawOk := by
      intro d
      rw [dayShifts_ensureDay]
      exact hb d
    refine foldl_preserve (fun (stk : St × Nat) => allWF stk.1.schedule ∧
      ∀ d, (dayShifts stk.1.schedule d).Pairwise rawOk)
      (doOp workers ws_status shift_lengths maxH maxW orc day) _ ?_ _ ⟨ha2, hb2⟩
    intro stk2 o ho hstk2
    exact doOp_inv workers ws_status shift_lengths maxH maxW orc day hnd hpick hshuf hSL
      stk2 o (hopsQ2 o ho) hstk2.1 hstk2.2

lemma phase2_inv (hop : List (String × List OpInterval)) (workers : List Worker)
    (ws_status : String → Bool) (shift_lengths : List ℚ) (maxH : ℚ) (maxW : Nat)
    (orc : Oracle) (st0 : St)
    (hhopQ : ∀ p ∈ hop, ∀ o ∈ p.2,
      isQ60 (time_to_hour o.start) ∧ isQ60 (time_to_hour o.stop))
    (hnd : (workers.map Worker.email).Nodup) (hpick : ∀ k l, (orc.pick k l).Perm l)
    (hshuf : ∀ k l, (orc.lenShuffle k l).Perm l)
    (hSL : ∀ l ∈ shift_lengths, 0 ≤ l ∧ isQ60 l)
    (ha : allWF st0.schedule)
    (hb : ∀ d, (dayShifts st0.schedule d).Pairwise rawOk) :
    allWF (phase2 hop workers ws_status shift_lengths maxH maxW orc st0).schedule ∧
    (∀ d, (dayShifts (phase2 hop workers ws_status shift_lengths maxH maxW orc
      st0).schedule d).Pairwise rawOk) := by
  unfold phase2
  dsimp only
  refine foldl_preserve (fun (stk : St × Nat) => allWF stk.1.schedule ∧
    ∀ d, (dayShifts stk.1.schedule d).Pairwise rawOk)
    (doDay hop workers ws_status shift_lengths maxH maxW orc) _ ?_ (st0, 0) ⟨ha, hb⟩
  intro stk day hday hstk
  exact doDay_inv hop workers ws_status shift_lengths maxH maxW orc hhopQ hnd hpick hshuf
    hSL stk day hstk.1 hstk.2

/-- Conversion of the internal pairwise invariant to the claim's wording on
string-derived intervals. -/
lemma schedOK_to_claim (sc : Sched) (ha : allWF sc)
    (hb : ∀ d, (dayShifts sc d).Pairwise rawOk) :
    ∀ day, (dayShifts sc day).Pairwise (fun sh1 sh2 =>
      (sh1.is_work_study = true ∧ sh2.is_work_study = true) ∨
      overlaps (time_to_hour sh1.start) (time_to_hour sh1.stop)
        (time_to_hour sh2.start) (time_to_hour sh2.stop) = false ∨
      ∀ em, em ∈ sh1.raw_assigned → em ∉ sh2.raw_assigned) := by
  intro day
  refine List.Pairwise.imp_of_mem ?_ (hb day)
  intro a b hamem hbmem hab
  rcases hab with h | h | h
  · exact Or.inl h
  · refine Or.inr (Or.inl ?_)
    obtain ⟨ha1, ha2, ha3, ha4, _⟩ := ha day a hamem
    obtain ⟨hb1, hb2, hb3, hb4, _⟩ := ha day b hbmem
    rw [ha1, ha2, hb1, hb2, isQ60_roundtrip ha3, isQ60_roundtrip ha4,
      isQ60_roundtrip hb3, isQ60_roundtrip hb4]
    unfold overlaps
    exact decide_eq_false h
  · exact Or.inr (Or.inr h)

section EvalTheorems

attribute [local semireducible] Rat.add Rat.mul Rat.sub Rat.inv

/-- C8: `parse_availability "Monday 09:00-17:00, Tue 18:00-02:00"` yields
exactly Monday ↦ [9.0, 17.0] and Tuesday ↦ [18.0, 26.0] (the wrapped end
18:00–02:00 gets 24 added). -/
theorem C8_parser_round_trip :
    parse_availability "Monday 09:00-17:00, Tue 18:00-02:00" =
      [("Monday", [⟨"09:00", "17:00", 9, 17⟩]),
       ("Tuesday", [⟨"18:00", "02:00", 18, 26⟩])] := by
  decide

/-- C7: an empty (or missing, which reaches the same falsy guard)
hours-of-operation map or worker list makes
`create_shifts_from_availability` return all-empty results at once. -/
theorem C7_empty_inputs (hop : List (String × List OpInterval)) (workers : List Worker)
    (max_hours_per_worker : ℚ) (max_workers_per_shift : Nat) (min_hours_per_worker : ℚ)
    (orc : Oracle) (h : hop = [] ∨ workers = []) :
    create_shifts_from_availability hop workers max_hours_per_worker max_workers_per_shift
      min_hours_per_worker orc = ⟨[], fun _ => 0, [], [], [], [], [], []⟩ := by
  unfold create_shifts_from_availability
  rw [if_pos h]

/-- Witness for C7 at concrete empty inputs. -/
theorem C7_empty_inputs_witness :
    (([] : List (String × List OpInterval)) = [] ∨ [regIdle] = []) ∧
    create_shifts_from_availability [] [regIdle] 20 2 3 idOracle =
      ⟨[], fun _ => 0, [], [], [], [], [], []⟩ :=
  ⟨Or.inl rfl, C7_empty_inputs [] [regIdle] 20 2 3 idOracle (Or.inl rfl)⟩

/-- C10: `time_to_hour` is total by construction (it is a plain function to
`ℚ`; every `try` of the Python code is modelled by the `Option`-valued
parsers), and on input that is not two colon-separated `int()`-parseable
fields and that `float()` cannot parse either, it returns 0. -/
theorem C10_time_to_hour_fallback_zero (s : String)
    (hsplit : (pySplit s ':').length ≠ 2 ∨
      ∃ a b, pySplit s ':' = [a, b] ∧ (parseIntQ a = none ∨ parseIntQ b = none))
    (hfloat : parseFloatQ s = none) :
    time_to_hour s = 0 := by
  unfold time_to_hour
  rcases hsplit with h2 | ⟨a, b, hab, hpq⟩
  · rcases hsp : pySplit s ':' with _ | ⟨x, _ | ⟨y, _ | ⟨z, zs⟩⟩⟩ <;>
      simp_all [hfloat]
  · rw [hab]
    rcases h1 : parseIntQ a with _ | v <;> rcases h2 : parseIntQ b with _ | w <;>
      simp_all [hfloat]

/-- Witness for C10 at the unparseable inputs `"garbage"` and `"9:5:0"`. -/
theorem C10_time_to_hour_fallback_zero_witness :
    ((pySplit "garbage" ':').length ≠ 2 ∧ parseFloatQ "garbage" = none ∧
      time_to_hour "garbage" = 0) ∧
    ((pySplit "9:5:0" ':').length ≠ 2 ∧ parseFloatQ "9:5:0" = none ∧
      time_to_hour "9:5:0" = 0) :=
  ⟨⟨by decide, by decide,
      C10_time_to_hour_fallback_zero "garbage" (Or.inl (by decide)) (by decide)⟩,
   ⟨by decide, by decide,
      C10_time_to_hour_fallback_zero "9:5:0" (Or.inl (by decide)) (by decide)⟩⟩

/-- C1, evaluation at the failing input: the engine assigns `wsSplitProbe`
the Monday shift carved as `[9, 12]` (3.0h taken from the 2.8h window
`[9, 11.8]` by the tolerance-based split), a shift the worker is *not*
available for per `is_worker_available`; the spec's availability-containment
invariant is the clear intent and the tolerance carve a slip. -/
theorem C1_containment_violation_eval :
    ((dayShifts (create_shifts_from_availability hopMonTue [wsSplitProbe] 20 2 3
        idOracle).schedule "Monday").any (fun sh =>
      !(sh.assigned == ["Unfilled"]) && sh.raw_assigned == ["ws@x"] &&
      !(is_worker_available wsSplitProbe "Monday" sh.sh sh.eh))) = true := by
  decide

/-- C2, counterexample: `wsTwinB` has 5 matching hours (≥ 5), yet receives 0
assigned hours — phase 1 skips both of its 3h/2h pieces because `wsTwinA`
already saturated the identical slots under `max_workers_per_shift = 1` —
and no shift of the returned schedule carries `b@x`. -/
theorem C2_exactness_counterexample :
    5 ≤ matchingHours hopMon5 wsTwinB ∧
    (create_shifts_from_availability hopMon5 [wsTwinA, wsTwinB] 20 1 3
      idOracle).assigned_hours "b@x" = 0 ∧
    ((create_shifts_from_availability hopMon5 [wsTwinA, wsTwinB] 20 1 3
      idOracle).schedule.all (fun p =>
        p.2.all (fun sh => !(sh.raw_assigned.contains "b@x")))) = true := by
  refine ⟨by decide, by decide, by decide⟩

/-- C3, counterexample: with the positive cap `max_hours_per_worker = 4`, the
work-study phase still assigns 5 hours, exceeding the cap. -/
theorem C3_cap_counterexample :
    (0 : ℚ) < 4 ∧
    (create_shifts_from_availability hopMon5 [wsTwinA] 4 2 3
      idOracle).assigned_hours "a@x" = 5 ∧
    ¬((create_shifts_from_availability hopMon5 [wsTwinA] 4 2 3
      idOracle).assigned_hours "a@x" ≤ 4) := by
  refine ⟨by decide, by decide, by decide⟩

/-- C4, counterexample: `wsOverlap`'s two Monday windows `[9,12]` (≈3h) and
`[10,12]` (2h) pass the 3+2 split search, producing two overlapping Monday
shifts both carrying `ov@x` in `raw_assigned`. -/
theorem C4_overlap_counterexample :
    ((dayShifts (create_shifts_from_availability hopMon3 [wsOverlap] 20 2 3
        idOracle).schedule "Monday").any (fun sh1 =>
      (dayShifts (create_shifts_from_availability hopMon3 [wsOverlap] 20 2 3
        idOracle).schedule "Monday").any (fun sh2 =>
          !(sh1 == sh2) && sh1.raw_assigned.contains "ov@x" &&
          sh2.raw_assigned.contains "ov@x" &&
          overlaps (time_to_hour sh1.start) (time_to_hour sh1.stop)
            (time_to_hour sh2.start) (time_to_hour sh2.stop)))) = true := by
  decide

/-- C5, counterexample: `regIdle` ends with 0 assigned hours (not
`0 < hours`), yet is listed in `low_hours` — the code has no lower bound. -/
theorem C5_low_hours_counterexample :
    "Reg Guy" ∈ (create_shifts_from_availability hopMon2 [regIdle] 20 1 3
      idOracle).low_hours ∧
    (create_shifts_from_availability hopMon2 [regIdle] 20 1 3
      idOracle).assigned_hours "reg@x" = 0 := by
  refine ⟨by decide, by decide⟩

/-- C6, counterexample: the slot Monday 09:00–11:00 is unfilled and no worker
qualifies, so `find_alternative_workers` returns `[]` and — contrary to the
claim, which maps every unfilled key to its (possibly empty) list — the key
is absent from `alt_sols`. -/
theorem C6_alt_sols_counterexample :
    (⟨"Monday", "09:00", "11:00", 9, 11⟩ : Unfilled) ∈
      (create_shifts_from_availability hopMon2 [regIdle] 20 1 3
        idOracle).unfilled_shifts ∧
    find_alternative_workers [regIdle] "Monday" 9 11
      (create_shifts_from_availability hopMon2 [regIdle] 20 1 3
        idOracle).assigned_hours (20 * (3/2)) [] = [] ∧
    dlookup (create_shifts_from_availability hopMon2 [regIdle] 20 1 3
      idOracle).alt_sols "Monday 09:00-11:00" = none := by
  refine ⟨by decide, by decide, by decide⟩

/-- C3 (amended): the assigned-hours cap actually enforced by
`create_shifts_from_availability` is `max 5 max_hours_per_worker`, not
`max_hours_per_worker` itself: phase 1 gives each work-study worker up to
5 hours without consulting the cap, while phase 2 respects it; so the
spec's bound holds exactly when `5 ≤ max_hours_per_worker`. -/
theorem C3_cap_amended (hop : List (String × List OpInterval)) (workers : List Worker)
    (maxH : ℚ) (maxW : Nat) (minH : ℚ) (orc : Oracle)
    (hnd : (workers.map Worker.email).Nodup)
    (hpick : ∀ k l, (orc.pick k l).Perm l) :
    ∀ em, (create_shifts_from_availability hop workers maxH maxW minH orc).assigned_hours em
      ≤ max 5 maxH := by
  intro em
  unfold create_shifts_from_availability
  by_cases hguard : hop = [] ∨ workers = []
  · rw [if_pos hguard]
    exact le_trans (by norm_num : (0 : ℚ) ≤ 5) (le_max_left 5 maxH)
  · rw [if_neg hguard]
    dsimp only
    refine phase2_ah_bound hop workers _ _ maxH maxW orc _ hnd hpick ?_ em
    intro em'
    refine le_trans (phase1_ah_le5 hop _ maxW ?_ em') (le_max_left 5 maxH)
    exact sortByKey_map_nodup _ _
      (((List.filter_sublist workers).map Worker.email).nodup hnd)

/-- Witness for C3 at one work-study worker, cap 4. -/
theorem C3_cap_amended_witness :
    (([wsTwinA].map Worker.email).Nodup ∧ (∀ k l, (idOracle.pick k l).Perm l)) ∧
    (create_shifts_from_availability hopMon5 [wsTwinA] 4 2 0 idOracle).assigned_hours "a@x"
      ≤ max 5 4 :=
  ⟨⟨by decide, fun _ _ => List.Perm.refl _⟩,
   C3_cap_amended hopMon5 [wsTwinA] 4 2 0 idOracle (by decide)
     (fun _ _ => List.Perm.refl _) "a@x"⟩

/-- C5 (amended): `low_hours` lists exactly the non-work-study workers whose
final assigned hours are strictly below 4 — with no strict lower bound: a
worker with 0 assigned hours appears as well, contrary to the claimed
`0 < assignedHours` condition. Requires nonempty operating hours (else the
empty-input guard returns an empty list) and distinct worker emails. -/
theorem C5_low_hours_amended (hop : List (String × List OpInterval)) (workers : List Worker)
    (maxH : ℚ) (maxW : Nat) (minH : ℚ) (orc : Oracle)
    (hnd : (workers.map Worker.email).Nodup) (hhop : hop ≠ []) :
    (create_shifts_from_availability hop workers maxH maxW minH orc).low_hours =
      (workers.filter (fun w => !w.work_study &&
        decide ((create_shifts_from_availability hop workers maxH maxW minH orc).assigned_hours
          w.email < 4))).map wname := by
  by_cases hw : workers = []
  · subst hw
    rw [create_shifts_from_availability, if_pos (Or.inr rfl)]
    simp
  · unfold create_shifts_from_availability
    rw [if_neg (by push_neg; exact ⟨hhop, hw⟩)]
    dsimp only
    congr 1
    apply List.filter_congr
    intro w hwmem
    rw [find_rev_email hnd hwmem]
    simp

/-- Witness for C5: an idle regular worker. -/
theorem C5_low_hours_amended_witness :
    (([regIdle].map Worker.email).Nodup ∧ hopMon2 ≠ []) ∧
    (create_shifts_from_availability hopMon2 [regIdle] 20 2 0 idOracle).low_hours =
      ([regIdle].filter (fun w => !w.work_study &&
        decide ((create_shifts_from_availability hopMon2 [regIdle] 20 2 0
          idOracle).assigned_hours w.email < 4))).map wname :=
  ⟨⟨by decide, by simp [hopMon2]⟩,
   C5_low_hours_amended hopMon2 [regIdle] 20 2 0 idOracle (by decide) (by simp [hopMon2])⟩

/-- C6 (amended): `find_alternative_workers` indeed returns exactly the
workers available for the slot whose current hours plus the slot fit under
the cap it is given, sorted ascending by current assigned hours; but
`alt_sols` maps an unfilled slot's key only when that list is nonempty —
a slot with no alternatives is simply absent from `alt_sols` (the
`if sols:` guard), not mapped to an empty list. Duplicate keys are assumed
to denote the same slot. -/
theorem C6_alt_sols_amended (hop : List (String × List OpInterval)) (workers : List Worker)
    (maxH : ℚ) (maxW : Nat) (minH : ℚ) (orc : Oracle)
    (hkey : ∀ u1 ∈ (create_shifts_from_availability hop workers maxH maxW minH
        orc).unfilled_shifts,
      ∀ u2 ∈ (create_shifts_from_availability hop workers maxH maxW minH orc).unfilled_shifts,
      u1.day ++ " " ++ u1.start ++ "-" ++ u1.stop =
        u2.day ++ " " ++ u2.start ++ "-" ++ u2.stop →
      u1.day = u2.day ∧ u1.start_hour = u2.start_hour ∧ u1.end_hour = u2.end_hour) :
    (∀ (day : String) (s e : ℚ) (ah : String → ℚ) (mh : ℚ),
      (find_alternative_workers workers day s e ah mh []).Perm
        (workers.filter (fun w => is_worker_available w day s e &&
          decide (ah w.email + (e - s) ≤ mh))) ∧
      (find_alternative_workers workers day s e ah mh []).Pairwise
        (fun a b => ah a.email ≤ ah b.email)) ∧
    (∀ us ∈ (create_shifts_from_availability hop workers maxH maxW minH orc).unfilled_shifts,
      dlookup (create_shifts_from_availability hop workers maxH maxW minH orc).alt_sols
        (us.day ++ " " ++ us.start ++ "-" ++ us.stop) =
      if find_alternative_workers workers us.day us.start_hour us.end_hour
          (create_shifts_from_availability hop workers maxH maxW minH orc).assigned_hours
          (maxH * (3/2)) [] = [] then none
      else some ((find_alternative_workers workers us.day us.start_hour us.end_hour
        (create_shifts_from_availability hop workers maxH maxW minH orc).assigned_hours
        (maxH * (3/2)) []).map wname)) := by
  constructor
  · intro day s e ah mh
    constructor
    · unfold find_alternative_workers sortByKey
      dsimp only
      refine (List.perm_insertionSort _ _).trans (List.Perm.of_eq (List.filter_congr ?_))
      intro w _
      simp
    · unfold find_alternative_workers sortByKey
      dsimp only
      haveI h1 : IsTotal Worker (fun a b => ah a.email ≤ ah b.email) :=
        ⟨fun a b => le_total _ _⟩
      haveI h2 : IsTrans Worker (fun a b => ah a.email ≤ ah b.email) :=
        ⟨fun a b c hab hbc => le_trans hab hbc⟩
      exact List.sorted_insertionSort _ _
  · intro us hus
    by_cases hguard : hop = [] ∨ workers = []
    · unfold create_shifts_from_availability at hus
      rw [if_pos hguard] at hus
      simp at hus
    · unfold create_shifts_from_availability at hkey hus ⊢
      rw [if_neg hguard] at hkey hus ⊢
      dsimp only at hkey hus ⊢
      exact alt_sols_lookup workers (maxH * (3/2)) _ _ hkey us hus

/-- Witness for C6 on a run with one unfilled Monday slot and no alternatives. -/
theorem C6_alt_sols_amended_witness :
    ((∀ u1 ∈ (create_shifts_from_availability hopMon2 [regIdle] 20 1 3
        idOracle).unfilled_shifts,
      ∀ u2 ∈ (create_shifts_from_availability hopMon2 [regIdle] 20 1 3
        idOracle).unfilled_shifts,
      u1.day ++ " " ++ u1.start ++ "-" ++ u1.stop =
        u2.day ++ " " ++ u2.start ++ "-" ++ u2.stop →
      u1.day = u2.day ∧ u1.start_hour = u2.start_hour ∧ u1.end_hour = u2.end_hour) ∧
     (⟨"Monday", "09:00", "11:00", 9, 11⟩ : Unfilled) ∈
       (create_shifts_from_availability hopMon2 [regIdle] 20 1 3 idOracle).unfilled_shifts) ∧
    dlookup (create_shifts_from_availability hopMon2 [regIdle] 20 1 3 idOracle).alt_sols
      ("Monday" ++ " " ++ "09:00" ++ "-" ++ "11:00") =
      (if find_alternative_workers [regIdle] "Monday" 9 11
          (create_shifts_from_availability hopMon2 [regIdle] 20 1 3 idOracle).assigned_hours
          (20 * (3/2)) [] = [] then none
       else some ((find_alternative_workers [regIdle] "Monday" 9 11
          (create_shifts_from_availability hopMon2 [regIdle] 20 1 3 idOracle).assigned_hours
          (20 * (3/2)) []).map wname)) :=
  ⟨⟨by decide, by decide⟩,
   (C6_alt_sols_amended hopMon2 [regIdle] 20 1 3 idOracle (by decide)).2
     ⟨"Monday", "09:00", "11:00", 9, 11⟩ (by decide)⟩

/-- C2 (amended): the 5-hour work-study quota is exact at the split level —
the pieces carved for a worker sum to at most 5 hours, and to exactly 5
whenever the worker's availability intersected with operating hours totals
at least 5 — but not at assignment level: slot saturation can silently drop
pieces (see the counterexample), and every work-study worker whose final
assigned hours differ from 5 is reported in `ws_issues` by an entry
starting with their display name. -/
theorem C2_ws_amended (hop : List (String × List OpInterval)) (workers : List Worker)
    (maxH : ℚ) (maxW : Nat) (minH : ℚ) (orc : Oracle)
    (hnd : (workers.map Worker.email).Nodup) (hhop : hop ≠ []) :
    (∀ w : Worker,
      sumDur (find_optimal_shift_split (windowsFor hop w) 5 true) ≤ 5 ∧
      (5 ≤ matchingHours hop w →
        sumDur (find_optimal_shift_split (windowsFor hop w) 5 true) = 5)) ∧
    (∀ w ∈ workers, w.work_study = true →
      (create_shifts_from_availability hop workers maxH maxW minH orc).assigned_hours
        w.email ≠ 5 →
      ∃ issue ∈ (create_shifts_from_availability hop workers maxH maxW minH orc).ws_issues,
        (wname w).toList <+: issue.toList) := by
  constructor
  · intro w
    have h := optimal_pieces (windowsFor hop w) (windowsFor_lt hop w)
    exact ⟨h.2.1, fun hge => h.2.2 (by rw [totalWin_windowsFor]; exact hge)⟩
  · intro w hw hws hah
    have hwne : workers ≠ [] := by rintro rfl; simp at hw
    unfold create_shifts_from_availability at hah ⊢
    rw [if_neg (by push_neg; exact ⟨hhop, hwne⟩)] at hah ⊢
    dsimp only at hah ⊢
    refine ws_issue_exists _ workers _ _ hw ?_ (string_prefix_append3 _ _ _ _)
    rw [find_rev_email hnd hw]
    simp [hws, hah]

/-- Witness for C2 at the twin work-study run where the second twin ends
with 0 hours. -/
theorem C2_ws_amended_witness :
    (([wsTwinA, wsTwinB].map Worker.email).Nodup ∧ hopMon5 ≠ [] ∧
      wsTwinB ∈ [wsTwinA, wsTwinB] ∧ wsTwinB.work_study = true ∧
      (create_shifts_from_availability hopMon5 [wsTwinA, wsTwinB] 20 1 3
        idOracle).assigned_hours wsTwinB.email ≠ 5) ∧
    ∃ issue ∈ (create_shifts_from_availability hopMon5 [wsTwinA, wsTwinB] 20 1 3
      idOracle).ws_issues, (wname wsTwinB).toList <+: issue.toList :=
  ⟨⟨by decide, by simp [hopMon5], by decide, rfl, by decide⟩,
   (C2_ws_amended hopMon5 [wsTwinA, wsTwinB] 20 1 3 idOracle (by decide)
     (by simp [hopMon5])).2 wsTwinB (by decide) rfl (by decide)⟩

/-- C4 (amended): in every schedule produced from whole-minute operating
hours and worker availabilities, under a permutation-producing randomness
oracle and distinct worker emails, no worker appears in the `raw_assigned`
of two overlapping same-day shifts — except possibly in two work-study
shifts: phase 1 carves a work-study worker's pieces from availability
windows that may themselves overlap (see the counterexample), while
phase 2 only fills slots disjoint from everything already scheduled. -/
theorem C4_overlap_amended (hop : List (String × List OpInterval)) (workers : List Worker)
    (maxH : ℚ) (maxW : Nat) (minH : ℚ) (orc : Oracle)
    (hnd : (workers.map Worker.email).Nodup)
    (hinit : (orc.initPerm [2, 3, 4, 5]).Perm [2, 3, 4, 5])
    (hshuf : ∀ k l, (orc.lenShuffle k l).Perm l)
    (hpick : ∀ k l, (orc.pick k l).Perm l)
    (hhopQ : ∀ p ∈ hop, ∀ o ∈ p.2,
      q60 (time_to_hour o.start) = true ∧ q60 (time_to_hour o.stop) = true)
    (havQ : ∀ w ∈ workers, ∀ p ∈ w.availability, ∀ a ∈ p.2,
      q60 a.start_hour = true ∧ q60 a.end_hour = true) :
    ∀ day, (dayShifts (create_shifts_from_availability hop workers maxH maxW minH
      orc).schedule day).Pairwise (fun sh1 sh2 =>
        (sh1.is_work_study = true ∧ sh2.is_work_study = true) ∨
        overlaps (time_to_hour sh1.start) (time_to_hour sh1.stop)
          (time_to_hour sh2.start) (time_to_hour sh2.stop) = false ∨
        ∀ em, em ∈ sh1.raw_assigned → em ∉ sh2.raw_assigned) := by
  intro day
  by_cases hguard : hop = [] ∨ workers = []
  · unfold create_shifts_from_availability
    rw [if_pos hguard]
    dsimp only
    simp [dayShifts]
  · unfold create_shifts_from_availability
    rw [if_neg hguard]
    dsimp only
    have hhopQ2 : ∀ p ∈ hop, ∀ o ∈ p.2,
        isQ60 (time_to_hour o.start) ∧ isQ60 (time_to_hour o.stop) :=
      fun p hp o ho => ⟨isQ60_of_q60 (hhopQ p hp o ho).1, isQ60_of_q60 (hhopQ p hp o ho).2⟩
    have hSL : ∀ l ∈ orc.initPerm [2, 3, 4, 5], 0 ≤ l ∧ isQ60 l := by
      intro l hl
      have hl2 : l ∈ ([2, 3, 4, 5] : List ℚ) := hinit.mem_iff.mp hl
      simp only [List.mem_cons, List.not_mem_nil, or_false] at hl2
      rcases hl2 with rfl | rfl | rfl | rfl
      · exact ⟨by norm_num, ⟨120, by norm_num⟩⟩
      · exact ⟨by norm_num, ⟨180, by norm_num⟩⟩
      · exact ⟨by norm_num, ⟨240, by norm_num⟩⟩
      · exact ⟨by norm_num, ⟨300, by norm_num⟩⟩
    have h1 : ∀ (ws : List Worker), (∀ w ∈ ws, w ∈ workers) →
        allWF (phase1 hop ws maxW ⟨[], fun _ => 0, []⟩).schedule ∧
        allWS (phase1 hop ws maxW ⟨[], fun _ => 0, []⟩).schedule := by
      intro ws hsub
      refine phase1_inv hop ws maxW hhopQ2 ?_ _ ?_ ?_
      · intro w hw p hp a hap
        exact ⟨isQ60_of_q60 (havQ w (hsub w hw) p hp a hap).1,
          isQ60_of_q60 (havQ w (hsub w hw) p hp a hap).2⟩
      · intro d sh hsh
        simp [dayShifts] at hsh
      · intro d sh hsh
        simp [dayShifts] at hsh
    have hsubws : ∀ (key : Worker → ℚ) (P : Worker → Bool),
        ∀ w ∈ sortByKey key (workers.filter P), w ∈ workers := by
      intro key P w hw
      unfold sortByKey at hw
      exact List.mem_of_mem_filter ((List.perm_insertionSort _ _).mem_iff.mp hw)
    refine schedOK_to_claim _ ?_ ?_ day
    · refine (phase2_inv hop workers _ _ maxH maxW orc _ hhopQ2 hnd hpick hshuf hSL
        ?_ ?_).1
      · exact (h1 _ (hsubws _ _)).1
      · intro d
        refine List.pairwise_of_forall_mem_list ?_
        intro a ha' b hb'
        exact Or.inl ⟨(h1 _ (hsubws _ _)).2 d a ha', (h1 _ (hsubws _ _)).2 d b hb'⟩
    · refine (phase2_inv hop workers _ _ maxH maxW orc _ hhopQ2 hnd hpick hshuf hSL
        ?_ ?_).2
      · exact (h1 _ (hsubws _ _)).1
      · intro d
        refine List.pairwise_of_forall_mem_list ?_
        intro a ha' b hb'
        exact Or.inl ⟨(h1 _ (hsubws _ _)).2 d a ha', (h1 _ (hsubws _ _)).2 d b hb'⟩

/-- Witness for C4 at the twin work-study run with whole-minute inputs. -/
theorem C4_overlap_amended_witness :
    (([wsTwinA, wsTwinB].map Worker.email).Nodup ∧
      ((idOracle.initPerm [2, 3, 4, 5]).Perm [2, 3, 4, 5]) ∧
      (∀ p ∈ hopMon5, ∀ o ∈ p.2,
        q60 (time_to_hour o.start) = true ∧ q60 (time_to_hour o.stop) = true) ∧
      (∀ w ∈ [wsTwinA, wsTwinB], ∀ p ∈ w.availability, ∀ a ∈ p.2,
        q60 a.start_hour = true ∧ q60 a.end_hour = true)) ∧
    (dayShifts (create_shifts_from_availability hopMon5 [wsTwinA, wsTwinB] 20 1 3
      idOracle).schedule "Monday").Pairwise (fun sh1 sh2 =>
        (sh1.is_work_study = true ∧ sh2.is_work_study = true) ∨
        overlaps (time_to_hour sh1.start) (time_to_hour sh1.stop)
          (time_to_hour sh2.start) (time_to_hour sh2.stop) = false ∨
        ∀ em, em ∈ sh1.raw_assigned → em ∉ sh2.raw_assigned) :=
  ⟨⟨by decide, List.Perm.refl _, by decide, by decide⟩,
   C4_overlap_amended hopMon5 [wsTwinA, wsTwinB] 20 1 3 idOracle (by decide)
     (List.Perm.refl _) (fun _ _ => List.Perm.refl _) (fun _ _ => List.Perm.refl _)
     (by decide) (by decide) "Monday"⟩

end EvalTheorems

end ScheduleApp
